import Mathlib

/-!
A verification development for the questcoin UTXO blockchain node.

The Go sources are shallowly embedded: byte strings become `List Nat`
(one entry per byte; Go `nil` slices and empty slices both become `[]`),
Go `int` becomes `Int` where negative values occur (output indices,
token values, heights of payloads) and `Nat` where the code only ever
holds non-negative values (nonces), and fallible/panicking paths
return `Option`.

External primitives that the code calls but does not define
(`crypto/sha256`, ECDSA over P-256, base58, RIPEMD-160) are passed in
as explicit function parameters, so every theorem quantifies over them;
`math/big` integer/byte conversions (`big.Int.Bytes`, `big.Int.SetBytes`)
and the big-endian framing `ToHex` are small enough to embed exactly.
-/

/-- Byte strings (`[]byte` in Go).  Each element stands for one byte. -/
abbrev Bytes := List Nat

/-- `big.Int.SetBytes`: interpret a byte string as a big-endian integer. -/
def toBigInt (bs : Bytes) : Nat :=
  bs.foldl (fun a b => a * 256 + b) 0

/-- Little-endian base-256 digits of a natural number (no leading
zeros); the first argument is recursion fuel, any value at least `n`
gives the digits of `n`. -/
def natBytesAux : Nat → Nat → Bytes
  | 0, _ => []
  | fuel + 1, n => if n = 0 then [] else (n % 256) :: natBytesAux fuel (n / 256)

/-- `big.Int.Bytes`: minimal big-endian byte encoding; `0` encodes to `[]`.
No padding is applied, exactly as in `math/big`. -/
def natBytes (n : Nat) : Bytes := (natBytesAux n n).reverse

/-- `ToHex` (proof.go): big-endian 8-byte encoding of an `int64`
written with `binary.Write(..., binary.BigEndian, num)`; the embedding
covers the non-negative values the code feeds it. -/
def toHex (n : Nat) : Bytes :=
  (List.range 8).map (fun i => n / 256 ^ (7 - i) % 256)

theorem toBigInt_append (a b : Bytes) :
    toBigInt (a ++ b) = toBigInt a * 256 ^ b.length + toBigInt b := by
  induction b using List.reverseRecOn with
  | nil => simp [toBigInt]
  | append_singleton xs x ih =>
    simp only [toBigInt, List.foldl_append, List.foldl_cons, List.foldl_nil] at *
    simp only [ih, List.length_append, List.length_singleton]
    ring

theorem natBytesAux_fuel (fuel1 : Nat) :
    ∀ fuel2 n, n ≤ fuel1 → n ≤ fuel2 → natBytesAux fuel1 n = natBytesAux fuel2 n := by
  induction fuel1 with
  | zero =>
    intro fuel2 n h1 _
    interval_cases n
    match fuel2 with
    | 0 => rfl
    | f + 1 => simp [natBytesAux]
  | succ f1 ih =>
    intro fuel2 n h1 h2
    match fuel2 with
    | 0 =>
      interval_cases n
      simp [natBytesAux]
    | f2 + 1 =>
      rw [natBytesAux, natBytesAux]
      by_cases hn : n = 0
      · rw [if_pos hn, if_pos hn]
      · rw [if_neg hn, if_neg hn]
        have hlt : n / 256 < n := Nat.div_lt_self (by omega) (by omega)
        rw [ih f2 (n / 256) (by omega) (by omega)]

theorem toBigInt_natBytes (n : Nat) : toBigInt (natBytes n) = n := by
  suffices h : ∀ fuel n, n ≤ fuel → toBigInt ((natBytesAux fuel n).reverse) = n by
    exact h n n (le_refl n)
  intro fuel
  induction fuel with
  | zero =>
    intro n h
    interval_cases n
    simp [natBytesAux, toBigInt]
  | succ f ih =>
    intro n h
    rw [natBytesAux]
    by_cases hn : n = 0
    · rw [if_pos hn]
      simp [toBigInt, hn]
    · rw [if_neg hn]
      simp only [List.reverse_cons]
      rw [toBigInt_append]
      have hlt : n / 256 < n := Nat.div_lt_self (by omega) (by omega)
      rw [ih (n / 256) (by omega)]
      simp only [toBigInt, List.foldl_cons, List.foldl_nil, List.length_singleton]
      omega

theorem natBytes_pos_len (n : Nat) (h : 0 < n) : 0 < (natBytes n).length := by
  rw [natBytes]
  match n, h with
  | m + 1, _ =>
    rw [natBytesAux, if_neg (by omega)]
    simp

/-- `TxOutput` (tx.go): an indivisible output locking `value` tokens
under a public-key hash. -/
structure TxOutput where
  value : Int
  pubKeyHash : Bytes
deriving DecidableEq, Repr

/-- `TxInput` (tx.go): a reference to output `out` of the earlier
transaction `id`, together with the spender's signature and raw
public key (`[]` models Go's `nil`). -/
structure TxInput where
  id : Bytes
  out : Int
  signature : Bytes
  pubKey : Bytes
deriving DecidableEq, Repr

/-- `Transaction` (transactions.go). -/
structure Transaction where
  id : Bytes
  inputs : List TxInput
  outputs : List TxOutput
deriving DecidableEq, Repr

/-- `TxOutputs` (tx.go): the collection serialized under one UTXO key. -/
structure TxOutputs where
  outputs : List TxOutput
deriving DecidableEq, Repr

/-- `Block` (block.go), fields in source order. -/
structure Block where
  timestamp : Int
  hash : Bytes
  transactions : List Transaction
  prevHash : Bytes
  nonce : Nat
  height : Nat
deriving DecidableEq, Repr

/-- Modelled from the spec: the gob payloads live in Go's standard
library, not in this repository; §4.A requires only "a self-describing
binary encoding that preserves field order and sequence lengths
deterministically" and that it round-trips.  `encNat` is the codec's
primitive: little-endian base-255 digits closed by a `255` byte. -/
def encNatAux : Nat → Bytes
  | 0 => []
  | n + 1 => ((n + 1) % 255) :: encNatAux ((n + 1) / 255)
decreasing_by exact Nat.div_lt_self (Nat.succ_pos n) (by omega)

def encNat (n : Nat) : Bytes := encNatAux n ++ [255]

def decNat : Bytes → Option (Nat × Bytes)
  | [] => none
  | b :: rest =>
    if b = 255 then some (0, rest)
    else
      match decNat rest with
      | some (v, r) => some (v * 255 + b, r)
      | none => none

theorem decNat_encNat (n : Nat) (rest : Bytes) :
    decNat (encNat n ++ rest) = some (n, rest) := by
  induction n using Nat.strong_induction_on with
  | _ n ih =>
    match n with
    | 0 => simp [encNat, encNatAux, decNat]
    | m + 1 =>
      rw [encNat, encNatAux]
      have hdiv : (m + 1) / 255 < m + 1 := Nat.div_lt_self (Nat.succ_pos m) (by omega)
      have hmod : (m + 1) % 255 < 255 := Nat.mod_lt _ (by omega)
      have hrec := ih ((m + 1) / 255) hdiv
      rw [encNat] at hrec
      simp only [List.cons_append, List.append_assoc] at *
      rw [decNat]
      simp only [hrec]
      rw [if_neg (by omega)]
      congr 2
      omega

/-- Sign-and-magnitude integer encoding. -/
def encInt (i : Int) : Bytes :=
  (if i < 0 then 1 else 0) :: encNat i.natAbs

def decInt : Bytes → Option (Int × Bytes)
  | [] => none
  | b :: rest =>
    (decNat rest).bind (fun p => some (if b = 1 then -(p.1 : Int) else (p.1 : Int), p.2))

theorem decInt_encInt (i : Int) (rest : Bytes) :
    decInt (encInt i ++ rest) = some (i, rest) := by
  by_cases h : i < 0
  · simp only [encInt, if_pos h, List.cons_append, decInt, decNat_encNat, Option.some_bind]
    simp only [if_true, Option.some.injEq, Prod.mk.injEq, and_true]
    omega
  · simp only [encInt, if_neg h, List.cons_append, decInt, decNat_encNat,
      Option.some_bind, Option.some.injEq, Prod.mk.injEq, and_true]
    rw [if_neg (by omega)]
    omega

/-- Length-prefixed byte strings. -/
def encBytes (bs : Bytes) : Bytes := encNat bs.length ++ bs

def decBytes (l : Bytes) : Option (Bytes × Bytes) :=
  (decNat l).bind (fun p =>
    if p.1 ≤ p.2.length then some (p.2.take p.1, p.2.drop p.1) else none)

theorem decBytes_encBytes (bs rest : Bytes) :
    decBytes (encBytes bs ++ rest) = some (bs, rest) := by
  rw [encBytes, List.append_assoc, decBytes, decNat_encNat]
  simp only [Option.some_bind]
  rw [if_pos (by simp)]
  rw [List.take_left, List.drop_left]

/-- Length-prefixed sequences. -/
def encList (enc : α → Bytes) (l : List α) : Bytes :=
  encNat l.length ++ (l.map enc).flatten

def decListAux (dec : Bytes → Option (α × Bytes)) : Nat → Bytes → Option (List α × Bytes)
  | 0, r => some ([], r)
  | n + 1, r =>
    (dec r).bind (fun p =>
      (decListAux dec n p.2).bind (fun q => some (p.1 :: q.1, q.2)))

def decList (dec : Bytes → Option (α × Bytes)) (l : Bytes) : Option (List α × Bytes) :=
  (decNat l).bind (fun p => decListAux dec p.1 p.2)

theorem decListAux_append (dec : Bytes → Option (α × Bytes)) (l : List α)
    (h : ∀ a ∈ l, ∀ rest, dec (enc a ++ rest) = some (a, rest)) (rest : Bytes) :
    decListAux dec l.length ((l.map enc).flatten ++ rest) = some (l, rest) := by
  induction l with
  | nil => simp [decListAux]
  | cons a as ih =>
    simp only [List.length_cons, List.map_cons, List.flatten_cons, List.append_assoc]
    rw [decListAux, h a (by simp)]
    simp only [Option.some_bind, ih (fun x hx rs => h x (by simp [hx]) rs)]

theorem decList_encList (dec : Bytes → Option (α × Bytes)) (l : List α)
    (h : ∀ a ∈ l, ∀ rest, dec (enc a ++ rest) = some (a, rest)) (rest : Bytes) :
    decList dec (encList enc l ++ rest) = some (l, rest) := by
  rw [encList, List.append_assoc, decList, decNat_encNat]
  simp only [Option.some_bind]
  exact decListAux_append dec l h rest

/-- Encoding of `TxOutput` (fields in source order). -/
def encTxOutput (o : TxOutput) : Bytes := encInt o.value ++ encBytes o.pubKeyHash

def decTxOutput (l : Bytes) : Option (TxOutput × Bytes) :=
  (decInt l).bind (fun p =>
    (decBytes p.2).bind (fun q => some (⟨p.1, q.1⟩, q.2)))

theorem decTxOutput_enc (o : TxOutput) (rest : Bytes) :
    decTxOutput (encTxOutput o ++ rest) = some (o, rest) := by
  rw [encTxOutput, List.append_assoc, decTxOutput, decInt_encInt]
  simp only [Option.some_bind, decBytes_encBytes]

/-- Encoding of `TxInput` (fields in source order). -/
def encTxInput (i : TxInput) : Bytes :=
  encBytes i.id ++ encInt i.out ++ encBytes i.signature ++ encBytes i.pubKey

def decTxInput (l : Bytes) : Option (TxInput × Bytes) :=
  (decBytes l).bind (fun p1 =>
    (decInt p1.2).bind (fun p2 =>
      (decBytes p2.2).bind (fun p3 =>
        (decBytes p3.2).bind (fun p4 => some (⟨p1.1, p2.1, p3.1, p4.1⟩, p4.2)))))

theorem decTxInput_enc (i : TxInput) (rest : Bytes) :
    decTxInput (encTxInput i ++ rest) = some (i, rest) := by
  rw [encTxInput]
  simp only [List.append_assoc]
  rw [decTxInput, decBytes_encBytes]
  simp only [Option.some_bind, decInt_encInt, decBytes_encBytes]

/-- Encoding of `Transaction` (fields in source order). -/
def encTransaction (t : Transaction) : Bytes :=
  encBytes t.id ++ encList encTxInput t.inputs ++ encList encTxOutput t.outputs

def decTransaction (l : Bytes) : Option (Transaction × Bytes) :=
  (decBytes l).bind (fun p1 =>
    (decList decTxInput p1.2).bind (fun p2 =>
      (decList decTxOutput p2.2).bind (fun p3 => some (⟨p1.1, p2.1, p3.1⟩, p3.2))))

theorem decTransaction_enc (t : Transaction) (rest : Bytes) :
    decTransaction (encTransaction t ++ rest) = some (t, rest) := by
  rw [encTransaction]
  simp only [List.append_assoc]
  rw [decTransaction, decBytes_encBytes]
  simp only [Option.some_bind]
  rw [decList_encList decTxInput t.inputs (fun a _ rs => decTxInput_enc a rs)]
  simp only [Option.some_bind]
  rw [decList_encList decTxOutput t.outputs (fun a _ rs => decTxOutput_enc a rs)]
  simp only [Option.some_bind]

/-- `Transaction.Serialize` (transactions.go). -/
def serializeTransaction (t : Transaction) : Bytes := encTransaction t

/-- `DeserializeTransaction`: decode one transaction from the front. -/
def deserializeTransaction (l : Bytes) : Option Transaction :=
  (decTransaction l).map Prod.fst

/-- `TxOutputs.Serialize` (tx.go). -/
def serializeOutputs (o : TxOutputs) : Bytes := encList encTxOutput o.outputs

/-- `DeserializeOutputs` (tx.go). -/
def deserializeOutputs (l : Bytes) : Option TxOutputs :=
  (decList decTxOutput l).map (fun p => ⟨p.1⟩)

/-- Encoding of `Block` (fields in source order). -/
def encBlock (b : Block) : Bytes :=
  encInt b.timestamp ++ encBytes b.hash ++ encList encTransaction b.transactions ++
    encBytes b.prevHash ++ encNat b.nonce ++ encNat b.height

def decBlock (l : Bytes) : Option (Block × Bytes) :=
  (decInt l).bind (fun p1 =>
    (decBytes p1.2).bind (fun p2 =>
      (decList decTransaction p2.2).bind (fun p3 =>
        (decBytes p3.2).bind (fun p4 =>
          (decNat p4.2).bind (fun p5 =>
            (decNat p5.2).bind (fun p6 =>
              some (⟨p1.1, p2.1, p3.1, p4.1, p5.1, p6.1⟩, p6.2)))))))

theorem decBlock_enc (b : Block) (rest : Bytes) :
    decBlock (encBlock b ++ rest) = some (b, rest) := by
  rw [encBlock]
  simp only [List.append_assoc]
  rw [decBlock, decInt_encInt]
  simp only [Option.some_bind, decBytes_encBytes]
  rw [decList_encList decTransaction b.transactions (fun a _ rs => decTransaction_enc a rs)]
  simp only [Option.some_bind, decBytes_encBytes, decNat_encNat]

/-- `Block.Serialize` (block.go). -/
def serializeBlock (b : Block) : Bytes := encBlock b

/-- `Deserialize` (block.go): decode one block from the front. -/
def deserializeBlock (l : Bytes) : Option Block :=
  (decBlock l).map Prod.fst

/-- `Addr` payload (handlers.go): a gossiped list of peer addresses
(strings are modelled as their byte sequences). -/
structure AddrPayload where
  addrList : List Bytes
deriving DecidableEq, Repr

/-- `Block` network payload (handlers.go). -/
structure BlockPayload where
  addrFrom : Bytes
  block : Bytes
deriving DecidableEq, Repr

/-- `GetBlocks` payload (handlers.go). -/
structure GetBlocksPayload where
  addrFrom : Bytes
deriving DecidableEq, Repr

/-- `GetData` payload (handlers.go): `type` is the ASCII string
"block" or "tx". -/
structure GetDataPayload where
  addrFrom : Bytes
  type : Bytes
  id : Bytes
deriving DecidableEq, Repr

/-- `Inv` payload (handlers.go). -/
structure InvPayload where
  addrFrom : Bytes
  type : Bytes
  items : List Bytes
deriving DecidableEq, Repr

/-- `Tx` payload (handlers.go). -/
structure TxPayload where
  addrFrom : Bytes
  transaction : Bytes
deriving DecidableEq, Repr

/-- `Version` payload (handlers.go). -/
structure VersionPayload where
  version : Int
  bestHeight : Int
  addrFrom : Bytes
deriving DecidableEq, Repr

def encAddrPayload (a : AddrPayload) : Bytes := encList encBytes a.addrList

def decAddrPayload (l : Bytes) : Option (AddrPayload × Bytes) :=
  (decList decBytes l).bind (fun p => some (⟨p.1⟩, p.2))

def encBlockPayload (b : BlockPayload) : Bytes := encBytes b.addrFrom ++ encBytes b.block

def decBlockPayload (l : Bytes) : Option (BlockPayload × Bytes) :=
  (decBytes l).bind (fun p1 =>
    (decBytes p1.2).bind (fun p2 => some (⟨p1.1, p2.1⟩, p2.2)))

def encGetBlocksPayload (g : GetBlocksPayload) : Bytes := encBytes g.addrFrom

def decGetBlocksPayload (l : Bytes) : Option (GetBlocksPayload × Bytes) :=
  (decBytes l).bind (fun p => some (⟨p.1⟩, p.2))

def encGetDataPayload (g : GetDataPayload) : Bytes :=
  encBytes g.addrFrom ++ encBytes g.type ++ encBytes g.id

def decGetDataPayload (l : Bytes) : Option (GetDataPayload × Bytes) :=
  (decBytes l).bind (fun p1 =>
    (decBytes p1.2).bind (fun p2 =>
      (decBytes p2.2).bind (fun p3 => some (⟨p1.1, p2.1, p3.1⟩, p3.2))))

def encInvPayload (i : InvPayload) : Bytes :=
  encBytes i.addrFrom ++ encBytes i.type ++ encList encBytes i.items

def decInvPayload (l : Bytes) : Option (InvPayload × Bytes) :=
  (decBytes l).bind (fun p1 =>
    (decBytes p1.2).bind (fun p2 =>
      (decList decBytes p2.2).bind (fun p3 => some (⟨p1.1, p2.1, p3.1⟩, p3.2))))

def encTxPayload (t : TxPayload) : Bytes := encBytes t.addrFrom ++ encBytes t.transaction

def decTxPayload (l : Bytes) : Option (TxPayload × Bytes) :=
  (decBytes l).bind (fun p1 =>
    (decBytes p1.2).bind (fun p2 => some (⟨p1.1, p2.1⟩, p2.2)))

def encVersionPayload (v : VersionPayload) : Bytes :=
  encInt v.version ++ encInt v.bestHeight ++ encBytes v.addrFrom

def decVersionPayload (l : Bytes) : Option (VersionPayload × Bytes) :=
  (decInt l).bind (fun p1 =>
    (decInt p1.2).bind (fun p2 =>
      (decBytes p2.2).bind (fun p3 => some (⟨p1.1, p2.1, p3.1⟩, p3.2))))

theorem decAddrPayload_enc (a : AddrPayload) (rest : Bytes) :
    decAddrPayload (encAddrPayload a ++ rest) = some (a, rest) := by
  rw [encAddrPayload, decAddrPayload,
    decList_encList decBytes a.addrList (fun x _ rs => decBytes_encBytes x rs)]
  rfl

theorem decBlockPayload_enc (b : BlockPayload) (rest : Bytes) :
    decBlockPayload (encBlockPayload b ++ rest) = some (b, rest) := by
  rw [encBlockPayload, List.append_assoc, decBlockPayload, decBytes_encBytes]
  simp only [Option.some_bind, decBytes_encBytes]

theorem decGetBlocksPayload_enc (g : GetBlocksPayload) (rest : Bytes) :
    decGetBlocksPayload (encGetBlocksPayload g ++ rest) = some (g, rest) := by
  rw [encGetBlocksPayload, decGetBlocksPayload, decBytes_encBytes]
  rfl

theorem decGetDataPayload_enc (g : GetDataPayload) (rest : Bytes) :
    decGetDataPayload (encGetDataPayload g ++ rest) = some (g, rest) := by
  rw [encGetDataPayload]
  simp only [List.append_assoc]
  rw [decGetDataPayload, decBytes_encBytes]
  simp only [Option.some_bind, decBytes_encBytes]

theorem decInvPayload_enc (i : InvPayload) (rest : Bytes) :
    decInvPayload (encInvPayload i ++ rest) = some (i, rest) := by
  rw [encInvPayload]
  simp only [List.append_assoc]
  rw [decInvPayload, decBytes_encBytes]
  simp only [Option.some_bind, decBytes_encBytes]
  rw [decList_encList decBytes i.items (fun x _ rs => decBytes_encBytes x rs)]
  rfl

theorem decTxPayload_enc (t : TxPayload) (rest : Bytes) :
    decTxPayload (encTxPayload t ++ rest) = some (t, rest) := by
  rw [encTxPayload, List.append_assoc, decTxPayload, decBytes_encBytes]
  simp only [Option.some_bind, decBytes_encBytes]

theorem decVersionPayload_enc (v : VersionPayload) (rest : Bytes) :
    decVersionPayload (encVersionPayload v ++ rest) = some (v, rest) := by
  rw [encVersionPayload]
  simp only [List.append_assoc]
  rw [decVersionPayload, decInt_encInt]
  simp only [Option.some_bind, decInt_encInt, decBytes_encBytes]

/-- C8: serialization round-trips.  For every `Block` b,
`Deserialize (Serialize b)` returns b field-by-field; for every
`TxOutputs` value, `DeserializeOutputs (outs.Serialize())` returns it
unchanged; and the same holds for transactions and for each of the
seven protocol payloads (`addr`, `block`, `getblocks`, `getdata`,
`inv`, `tx`, `version`).  The codec is the spec-modelled stand-in for
`encoding/gob` (§4.A), which lives outside this repository. -/
theorem serialization_roundtrip :
    (∀ b : Block, deserializeBlock (serializeBlock b) = some b) ∧
    (∀ o : TxOutputs, deserializeOutputs (serializeOutputs o) = some o) ∧
    (∀ t : Transaction, deserializeTransaction (serializeTransaction t) = some t) ∧
    (∀ a : AddrPayload, decAddrPayload (encAddrPayload a) = some (a, [])) ∧
    (∀ b : BlockPayload, decBlockPayload (encBlockPayload b) = some (b, [])) ∧
    (∀ g : GetBlocksPayload, decGetBlocksPayload (encGetBlocksPayload g) = some (g, [])) ∧
    (∀ g : GetDataPayload, decGetDataPayload (encGetDataPayload g) = some (g, [])) ∧
    (∀ i : InvPayload, decInvPayload (encInvPayload i) = some (i, [])) ∧
    (∀ t : TxPayload, decTxPayload (encTxPayload t) = some (t, [])) ∧
    (∀ v : VersionPayload, decVersionPayload (encVersionPayload v) = some (v, [])) := by
  refine ⟨fun b => ?_, fun o => ?_, fun t => ?_, fun a => ?_, fun b => ?_,
    fun g => ?_, fun g => ?_, fun i => ?_, fun t => ?_, fun v => ?_⟩
  · have := decBlock_enc b []
    rw [List.append_nil] at this
    rw [deserializeBlock, serializeBlock, this]
    rfl
  · have := decList_encList decTxOutput o.outputs (fun a _ rs => decTxOutput_enc a rs) []
    rw [List.append_nil] at this
    rw [deserializeOutputs, serializeOutputs, this]
    rfl
  · have := decTransaction_enc t []
    rw [List.append_nil] at this
    rw [deserializeTransaction, serializeTransaction, this]
    rfl
  · have := decAddrPayload_enc a []
    rwa [List.append_nil] at this
  · have := decBlockPayload_enc b []
    rwa [List.append_nil] at this
  · have := decGetBlocksPayload_enc g []
    rwa [List.append_nil] at this
  · have := decGetDataPayload_enc g []
    rwa [List.append_nil] at this
  · have := decInvPayload_enc i []
    rwa [List.append_nil] at this
  · have := decTxPayload_enc t []
    rwa [List.append_nil] at this
  · have := decVersionPayload_enc v []
    rwa [List.append_nil] at this

/-- The inner loop of `NewMerkleTree` (merkle tree source): pair up
adjacent nodes of an even-length level and hash each concatenation
(`NewMerkleNode` with two parents: `sha256(left.Data ++ right.Data)`). -/
def merklePairUp (sha : Bytes → Bytes) : List Bytes → List Bytes
  | a :: b :: rest => sha (a ++ b) :: merklePairUp sha rest
  | _ => []

theorem merklePairUp_length (sha : Bytes → Bytes) (l : List Bytes) :
    (merklePairUp sha l).length = l.length / 2 := by
  induction l using merklePairUp.induct sha with
  | case1 a b rest ih =>
    rw [merklePairUp]
    simp only [List.length_cons, ih]
    omega
  | case2 l h1 =>
    match l, h1 with
    | [], _ => simp [merklePairUp]
    | [a], _ => simp [merklePairUp]
    | a :: b :: rest, h => exact absurd rfl (h a b rest)

/-- Duplicate the last node when the level has odd length
(`nodes = append(nodes, nodes[len(nodes)-1])`). -/
def padIfOdd (nodes : List Bytes) : List Bytes :=
  if nodes.length % 2 ≠ 0 then nodes ++ [nodes.getLastD []] else nodes

/-- The `for len(nodes) > 1` loop of `NewMerkleTree`: pad, pair up,
repeat; finally return the single remaining node. -/
def merkleLoop (sha : Bytes → Bytes) (nodes : List Bytes) : Bytes :=
  if _h : nodes.length ≤ 1 then nodes.headD []
  else merkleLoop sha (merklePairUp sha (padIfOdd nodes))
termination_by nodes.length
decreasing_by
  rw [merklePairUp_length, padIfOdd]
  split
  · simp only [List.length_append, List.length_singleton]
    omega
  · omega

/-- `NewMerkleTree`: SHA-256 every leaf, error out (`log.Panic`) on an
empty leaf list, then run the pairing loop; the result is the root
node's data. -/
def newMerkleTree (sha : Bytes → Bytes) (data : List Bytes) : Option Bytes :=
  let nodes := data.map sha
  if nodes.length = 0 then none else some (merkleLoop sha nodes)

theorem merkleLoop_single (sha : Bytes → Bytes) (x : Bytes) :
    merkleLoop sha [x] = x := by
  rw [merkleLoop]
  rfl

theorem merkleLoop_step (sha : Bytes → Bytes) (nodes : List Bytes)
    (h : 2 ≤ nodes.length) :
    merkleLoop sha nodes = merkleLoop sha (merklePairUp sha (padIfOdd nodes)) := by
  rw [merkleLoop]
  rw [dif_neg (by omega)]

/-- C7: `NewMerkleTree` on a non-empty ordered leaf list hashes every
leaf to form level 0 and then, while more than one node remains,
duplicates the last node on odd length and hashes each pairwise
concatenation to form the next level; a single leaf yields
`sha256(leaf)` as root, and the empty list is an error.  Stated as the
defining equations of the embedded procedure, universally in the
`crypto/sha256` primitive. -/
theorem newMerkleTree_spec (sha : Bytes → Bytes) :
    newMerkleTree sha [] = none ∧
    (∀ leaf, newMerkleTree sha [leaf] = some (sha leaf)) ∧
    (∀ data, data ≠ [] →
      newMerkleTree sha data = some (merkleLoop sha (data.map sha))) ∧
    (∀ nodes, 2 ≤ nodes.length →
      merkleLoop sha nodes = merkleLoop sha (merklePairUp sha (padIfOdd nodes))) ∧
    (∀ x, merkleLoop sha [x] = x) ∧
    (∀ nodes, nodes.length % 2 = 1 → padIfOdd nodes = nodes ++ [nodes.getLastD []]) ∧
    (∀ nodes, nodes.length % 2 = 0 → padIfOdd nodes = nodes) ∧
    (∀ a b rest, merklePairUp sha (a :: b :: rest) = sha (a ++ b) :: merklePairUp sha rest) := by
  refine ⟨rfl, fun leaf => ?_, fun data hd => ?_, fun nodes h2 => merkleLoop_step sha nodes h2,
    fun x => merkleLoop_single sha x, fun nodes hodd => ?_, fun nodes heven => ?_,
    fun a b rest => rfl⟩
  · rw [newMerkleTree]
    simp only [List.map_cons, List.map_nil, List.length_singleton]
    rw [if_neg (by omega), merkleLoop_single]
  · rw [newMerkleTree]
    rw [if_neg (by simpa using hd)]
  · rw [padIfOdd, if_pos (by omega)]
  · rw [padIfOdd, if_neg (by omega)]

/-- Witness for C7 at a concrete three-leaf input (exercising the
odd-length duplication). -/
theorem newMerkleTree_spec_witness :
    ([[1], [2], [3]] : List Bytes) ≠ [] ∧
    newMerkleTree (fun bs => 7 :: bs) [[1], [2], [3]] =
      some (merkleLoop (fun bs => 7 :: bs) ([[1], [2], [3]].map (fun bs => 7 :: bs))) :=
  ⟨by decide, (newMerkleTree_spec (fun bs => 7 :: bs)).2.2.1 [[1], [2], [3]] (by decide)⟩

/-- `Difficulty` (proof.go). -/
def Difficulty : Nat := 12

/-- `NewProof`: the target is `1 <<< (256 - Difficulty)`. -/
def powTarget : Nat := 2 ^ (256 - Difficulty)

/-- `InitData` (proof.go): `prev_hash ‖ merkle_root ‖ BE64(nonce) ‖
BE64(Difficulty)` (`bytes.Join` with an empty separator). -/
def initData (prevHash txsHash : Bytes) (nonce : Nat) : Bytes :=
  prevHash ++ txsHash ++ toHex nonce ++ toHex Difficulty

/-- `math.MaxInt64`, the bound of `Run`'s nonce loop. -/
def maxInt64 : Nat := 2 ^ 63 - 1

/-- The loop body of `ProofOfWork.Run`: while `nonce < math.MaxInt64`,
hash `InitData nonce`; stop as soon as the big-endian value is below
the target, else increment.  `fuel` counts the remaining iterations
(`maxInt64 - nonce`); the third argument carries the last computed
hash, which Go returns even when the loop exhausts the range. -/
def powRunAux (sha : Bytes → Bytes) (prevHash txsHash : Bytes) :
    Nat → Nat → Bytes → Nat × Bytes
  | 0, nonce, lastHash => (nonce, lastHash)
  | fuel + 1, nonce, _ =>
    let h := sha (initData prevHash txsHash nonce)
    if toBigInt h < powTarget then (nonce, h)
    else powRunAux sha prevHash txsHash fuel (nonce + 1) h

/-- `ProofOfWork.Run` (proof.go). -/
def powRun (sha : Bytes → Bytes) (prevHash txsHash : Bytes) : Nat × Bytes :=
  powRunAux sha prevHash txsHash maxInt64 0 []

/-- `ProofOfWork.Validate` (proof.go): recompute with the stored nonce
and compare against the target. -/
def powValidate (sha : Bytes → Bytes) (prevHash txsHash : Bytes) (nonce : Nat) : Bool :=
  decide (toBigInt (sha (initData prevHash txsHash nonce)) < powTarget)

/-- `Block.HashTransactions` (block.go): Merkle root over the
serialized transactions. -/
def hashTransactions (sha : Bytes → Bytes) (txs : List Transaction) : Option Bytes :=
  newMerkleTree sha (txs.map serializeTransaction)

/-- `CreateBlock` (block.go): run the proof of work and store the
resulting nonce and hash; `none` models the `log.Panic` raised by
`NewMerkleTree` on an empty transaction list. -/
def createBlock (sha : Bytes → Bytes) (timestamp : Int) (txs : List Transaction)
    (prevHash : Bytes) (height : Nat) : Option Block :=
  (hashTransactions sha txs).map (fun mh =>
    let r := powRun sha prevHash mh
    ⟨timestamp, r.2, txs, prevHash, r.1, height⟩)

/-- `Genesis` (block.go): `CreateBlock [coinbase] [] 0`. -/
def genesisBlock (sha : Bytes → Bytes) (timestamp : Int) (coinbase : Transaction) :
    Option Block :=
  createBlock sha timestamp [coinbase] [] 0

/-- `ProofOfWork.Validate` applied to a sealed block (`NewProof b`
followed by `Validate`). -/
def blockValidate (sha : Bytes → Bytes) (b : Block) : Option Bool :=
  (hashTransactions sha b.transactions).map (fun mh =>
    powValidate sha b.prevHash mh b.nonce)

theorem powRunAux_found (sha : Bytes → Bytes) (prevHash txsHash : Bytes) :
    ∀ fuel start lastHash,
      (∃ i, i < fuel ∧
        toBigInt (sha (initData prevHash txsHash (start + i))) < powTarget) →
      (powRunAux sha prevHash txsHash fuel start lastHash).2 =
          sha (initData prevHash txsHash
            (powRunAux sha prevHash txsHash fuel start lastHash).1) ∧
        toBigInt (powRunAux sha prevHash txsHash fuel start lastHash).2 < powTarget ∧
        start ≤ (powRunAux sha prevHash txsHash fuel start lastHash).1 ∧
        (∀ m, start ≤ m → m < (powRunAux sha prevHash txsHash fuel start lastHash).1 →
          ¬ toBigInt (sha (initData prevHash txsHash m)) < powTarget) := by
  intro fuel
  induction fuel with
  | zero =>
    intro start lastHash h
    obtain ⟨i, hi, _⟩ := h
    omega
  | succ f ih =>
    intro start lastHash h
    by_cases hacc : toBigInt (sha (initData prevHash txsHash start)) < powTarget
    · rw [powRunAux]
      simp only [if_pos hacc]
      refine ⟨?_, hacc, le_refl _, fun m h1 h2 => absurd (lt_of_le_of_lt h1 h2) (lt_irrefl _)⟩
      simp
    · rw [powRunAux]
      simp only [if_neg hacc]
      have hex : ∃ i, i < f ∧
          toBigInt (sha (initData prevHash txsHash (start + 1 + i))) < powTarget := by
        obtain ⟨i, hi, hlt⟩ := h
        match i with
        | 0 => exact absurd hlt (by simpa using hacc)
        | j + 1 => exact ⟨j, by omega, by rw [show start + 1 + j = start + (j + 1) by omega]; exact hlt⟩
      obtain ⟨e1, e2, e3, e4⟩ := ih (start + 1) (sha (initData prevHash txsHash start)) hex
      refine ⟨e1, e2, by omega, fun m h1 h2 => ?_⟩
      by_cases hm : m = start
      · rw [hm]; exact hacc
      · exact e4 m (by omega) h2

/-- C1: every block sealed by the proof-of-work engine (`CreateBlock`,
hence `MineBlock` and `Genesis`, which seal through it) stores
`hash = SHA256(prev_hash ‖ merkle_root(txs) ‖ BE64(nonce) ‖ BE64(12))`,
its big-endian value is strictly below `1 <<< (256 - 12)`, the stored
nonce is the least one satisfying the inequality (the search starts at
0 and is sequential), and `Validate` returns true on the sealed block.
Stated universally in the `crypto/sha256` primitive; the hypothesis
that some nonce below `math.MaxInt64` succeeds reflects that `Run`'s
loop only tries that range. -/
theorem createBlock_pow_spec (sha : Bytes → Bytes) (timestamp : Int)
    (txs : List Transaction) (prevHash : Bytes) (height : Nat) (mh : Bytes) (b : Block)
    (hmh : hashTransactions sha txs = some mh)
    (hex : ∃ n, n < maxInt64 ∧ toBigInt (sha (initData prevHash mh n)) < powTarget)
    (hb : createBlock sha timestamp txs prevHash height = some b) :
    b.hash = sha (initData prevHash mh b.nonce) ∧
    toBigInt b.hash < powTarget ∧
    (∀ m, m < b.nonce → ¬ toBigInt (sha (initData prevHash mh m)) < powTarget) ∧
    blockValidate sha b = some true := by
  rw [createBlock, hmh] at hb
  simp only [Option.map_some'] at hb
  obtain ⟨n, hn, hacc⟩ := hex
  have hfound := powRunAux_found sha prevHash mh maxInt64 0 []
    ⟨n, by omega, by simpa using hacc⟩
  rw [← powRun] at hfound
  obtain ⟨e1, e2, e3, e4⟩ := hfound
  have hbe : (⟨timestamp, (powRun sha prevHash mh).2, txs, prevHash,
      (powRun sha prevHash mh).1, height⟩ : Block) = b := Option.some.inj hb
  subst hbe
  refine ⟨e1, e2, fun m hm => e4 m (Nat.zero_le m) hm, ?_⟩
  rw [blockValidate]
  show Option.map _ (hashTransactions sha txs) = some true
  rw [hmh]
  simp only [Option.map_some', Option.some.injEq]
  rw [powValidate, decide_eq_true_eq]
  show toBigInt (sha (initData prevHash mh (powRun sha prevHash mh).1)) < powTarget
  rw [← e1]
  exact e2

/-- Witness for C1: with a hash primitive that returns the empty byte
string, nonce 0 succeeds immediately and the sealed block validates. -/
theorem createBlock_pow_spec_witness :
    (∃ n, n < maxInt64 ∧
      toBigInt ((fun _ => ([] : Bytes)) (initData [] [] n)) < powTarget) ∧
    blockValidate (fun _ => []) ⟨0, [], [⟨[], [], []⟩], [], 0, 0⟩ = some true := by
  have h1 : hashTransactions (fun _ => ([] : Bytes)) [⟨[], [], []⟩] = some [] := by
    rw [hashTransactions, List.map_cons, List.map_nil, newMerkleTree]
    simp only [List.map_cons, List.map_nil, List.length_singleton]
    rw [if_neg (by omega), merkleLoop_single]
  have hpow : powRun (fun _ => ([] : Bytes)) [] [] = (0, []) := by decide
  have h3 : createBlock (fun _ => ([] : Bytes)) 0 [⟨[], [], []⟩] [] 0 =
      some ⟨0, [], [⟨[], [], []⟩], [], 0, 0⟩ := by
    rw [createBlock, h1]
    simp [hpow]
  have hex : ∃ n, n < maxInt64 ∧
      toBigInt ((fun _ => ([] : Bytes)) (initData [] [] n)) < powTarget :=
    ⟨0, by decide, by decide⟩
  exact ⟨hex,
    (createBlock_pow_spec (fun _ => []) 0 [⟨[], [], []⟩] [] 0 [] _ h1 hex h3).2.2.2⟩

/-- `miningReward` (transactions.go line 146). -/
def miningReward : Int := 20

/-- `Transaction.IsCoinbase` (transactions.go): one input whose
referenced id is empty and whose output index is -1. -/
def isCoinbase (tx : Transaction) : Bool :=
  match tx.inputs with
  | [inp] => inp.id.length == 0 && inp.out == -1
  | _ => false

/-- `Transaction.Hash` (transactions.go): SHA-256 of the serialization
of a copy whose `ID` is zeroed. -/
def txHash (sha : Bytes → Bytes) (tx : Transaction) : Bytes :=
  sha (serializeTransaction { tx with id := [] })

/-- `TxOutput.Lock` (tx.go): base58-decode the address, strip the
1-byte version prefix and the 4-byte trailing checksum
(`pubKeyHash[1 : len(pubKeyHash)-4]`).  `b58dec` is the external
base58 primitive. -/
def lockForAddress (b58dec : Bytes → Bytes) (address : Bytes) : Bytes :=
  ((b58dec address).take ((b58dec address).length - 4)).drop 1

/-- `NewTXOutput` (tx.go): create an output and lock it. -/
def newTXOutput (b58dec : Bytes → Bytes) (value : Int) (address : Bytes) : TxOutput :=
  ⟨value, lockForAddress b58dec address⟩

/-- `TxOutput.IsLockedWithKey` (tx.go). -/
def isLockedWithKey (out : TxOutput) (pubKeyHash : Bytes) : Bool :=
  out.pubKeyHash == pubKeyHash

/-- `CoinbaseTx` (transactions.go): a single phantom input
`(id = [], out = -1, sig = nil, pubkey = data)` and one mining-reward
output locked to `to`; when `data` is empty Go fills it with the hex
of 24 random bytes, modelled by the extra `randData` parameter. -/
def coinbaseTx (b58dec : Bytes → Bytes) (sha : Bytes → Bytes)
    (toAddr data randData : Bytes) : Transaction :=
  let d := if data = [] then randData else data
  let txin : TxInput := ⟨[], -1, [], d⟩
  let txout := newTXOutput b58dec miningReward toAddr
  let tx : Transaction := ⟨[], [txin], [txout]⟩
  { tx with id := txHash sha tx }

/-- C9: for every address and non-empty data string, `CoinbaseTx`
returns a transaction with exactly one input whose referenced id is
empty, output index -1, nil signature and pubkey equal to the data
bytes, and exactly one output of the mining-reward constant 20 locked
to the pub-key-hash derived from the address; `IsCoinbase` accepts
the result. -/
theorem coinbaseTx_spec (b58dec sha : Bytes → Bytes) (toAddr data randData : Bytes)
    (hdata : data ≠ []) :
    (coinbaseTx b58dec sha toAddr data randData).inputs = [⟨[], -1, [], data⟩] ∧
    (coinbaseTx b58dec sha toAddr data randData).outputs =
      [⟨miningReward, lockForAddress b58dec toAddr⟩] ∧
    miningReward = 20 ∧
    isCoinbase (coinbaseTx b58dec sha toAddr data randData) = true := by
  refine ⟨?_, ?_, rfl, ?_⟩
  · simp [coinbaseTx, if_neg hdata]
  · simp [coinbaseTx, if_neg hdata, newTXOutput]
  · simp [coinbaseTx, if_neg hdata, isCoinbase]

/-- Witness for C9 at a concrete address and data string. -/
theorem coinbaseTx_spec_witness :
    ([5, 6] : Bytes) ≠ [] ∧
    isCoinbase (coinbaseTx (fun bs => 0 :: bs) (fun bs => bs) [1, 2] [5, 6] []) = true :=
  ⟨by decide, (coinbaseTx_spec (fun bs => 0 :: bs) (fun bs => bs) [1, 2] [5, 6] []
    (by decide)).2.2.2⟩

/-- The UTXO layer of the store: `utxo-`-prefixed keys (the prefix is
uniform, so keys are modelled as the raw transaction ids) mapping to
the serialized `TxOutputs`; the list order is badger's iteration
order. -/
abbrev UtxoStore := List (Bytes × TxOutputs)

/-- `unspentOuts[txID] = append(unspentOuts[txID], outIdx)`: Go map
append, as an association-list update. -/
def selAppend (sel : List (Bytes × List Nat)) (k : Bytes) (i : Nat) :
    List (Bytes × List Nat) :=
  match sel with
  | [] => [(k, [i])]
  | (k0, is) :: rest =>
    if k0 = k then (k0, is ++ [i]) :: rest else (k0, is) :: selAppend rest k i

/-- `UTXOSet.FindSpendableOutputs` (utxo.go): prefix-scan the UTXO
keys, and for each output locked with the pub-key-hash while the
accumulator is still below `amount`, add its value and record its
index under its transaction id. -/
def findSpendableOutputs (store : UtxoStore) (pubKeyHash : Bytes) (amount : Int) :
    Int × List (Bytes × List Nat) :=
  store.foldl (fun st kv =>
    kv.2.outputs.enum.foldl (fun st2 io =>
      if isLockedWithKey io.2 pubKeyHash = true ∧ st2.1 < amount
      then (st2.1 + io.2.value, selAppend st2.2 kv.1 io.1)
      else st2) st) (0, [])

/-- The construction phase of `NewTransaction` (transactions.go):
select spendable outputs, panic (`none`) when the accumulator is
below `amount`, otherwise build one input per selected output
(`pubkey = wallet public key`, `signature = nil`), an output of
`amount` to the recipient and, when change remains, a second output
back to the sender; finally set `id = tx.Hash()`.  The subsequent
`SignTransaction` call is modelled separately by `txSign`. -/
def newTransactionCore (b58dec sha pubKeyHashFn : Bytes → Bytes) (wPub : Bytes)
    (fromAddr toAddr : Bytes) (amount : Int) (store : UtxoStore) : Option Transaction :=
  let pkh := pubKeyHashFn wPub
  let r := findSpendableOutputs store pkh amount
  if r.1 < amount then none
  else
    let inputs := r.2.flatMap (fun kv =>
      kv.2.map (fun i => (⟨kv.1, (i : Int), [], wPub⟩ : TxInput)))
    let outputs := newTXOutput b58dec amount toAddr ::
      (if r.1 > amount then [newTXOutput b58dec (r.1 - amount) fromAddr] else [])
    let tx : Transaction := ⟨[], inputs, outputs⟩
    some { tx with id := txHash sha tx }

/-- C6: when the accumulated value is below `amount`,
`NewTransaction` fails with insufficient funds and produces no
transaction; otherwise it produces one input per selected unspent
output (each with the wallet's public key and a nil signature), a
first output of `amount` locked to the recipient, and a change output
back to the sender exactly when the accumulator exceeds `amount` —
and nothing else. -/
theorem newTransaction_spec (b58dec sha pubKeyHashFn : Bytes → Bytes)
    (wPub fromAddr toAddr : Bytes) (amount : Int) (store : UtxoStore) :
    ((findSpendableOutputs store (pubKeyHashFn wPub) amount).1 < amount →
      newTransactionCore b58dec sha pubKeyHashFn wPub fromAddr toAddr amount store = none) ∧
    (¬ (findSpendableOutputs store (pubKeyHashFn wPub) amount).1 < amount →
      ∃ tx, newTransactionCore b58dec sha pubKeyHashFn wPub fromAddr toAddr amount store =
          some tx ∧
        tx.inputs = (findSpendableOutputs store (pubKeyHashFn wPub) amount).2.flatMap
          (fun kv => kv.2.map (fun i => (⟨kv.1, (i : Int), [], wPub⟩ : TxInput))) ∧
        (∀ inp ∈ tx.inputs, inp.pubKey = wPub ∧ inp.signature = []) ∧
        tx.outputs = ⟨amount, lockForAddress b58dec toAddr⟩ ::
          (if amount < (findSpendableOutputs store (pubKeyHashFn wPub) amount).1 then
            [⟨(findSpendableOutputs store (pubKeyHashFn wPub) amount).1 - amount,
              lockForAddress b58dec fromAddr⟩]
          else [])) := by
  constructor
  · intro h
    rw [newTransactionCore]
    simp only [if_pos h]
  · intro h
    rw [newTransactionCore]
    simp only [if_neg h]
    refine ⟨_, rfl, rfl, ?_, rfl⟩
    intro inp hmem
    simp only [List.mem_flatMap, List.mem_map] at hmem
    obtain ⟨kv, _, i, _, hi⟩ := hmem
    rw [← hi]
    exact ⟨rfl, rfl⟩

/-- Witness for C6: a store holding outputs of value 15 and 10 locked
to the wallet's key covers a spend of 20 with change 5. -/
theorem newTransaction_spec_witness :
    ¬ (findSpendableOutputs [([9], ⟨[⟨15, [1]⟩, ⟨10, [1]⟩]⟩)] ((fun bs => bs) [1]) 20).1 < 20 ∧
    (∃ tx, newTransactionCore (fun bs => bs) (fun bs => bs) (fun bs => bs)
        [1] [3] [4] 20 [([9], ⟨[⟨15, [1]⟩, ⟨10, [1]⟩]⟩)] = some tx ∧
      tx.inputs = (findSpendableOutputs [([9], ⟨[⟨15, [1]⟩, ⟨10, [1]⟩]⟩)] [1] 20).2.flatMap
        (fun kv => kv.2.map (fun i => (⟨kv.1, (i : Int), [], [1]⟩ : TxInput))) ∧
      (∀ inp ∈ tx.inputs, inp.pubKey = [1] ∧ inp.signature = []) ∧
      tx.outputs = ⟨20, lockForAddress (fun bs => bs) [4]⟩ ::
        (if 20 < (findSpendableOutputs [([9], ⟨[⟨15, [1]⟩, ⟨10, [1]⟩]⟩)] [1] 20).1 then
          [⟨(findSpendableOutputs [([9], ⟨[⟨15, [1]⟩, ⟨10, [1]⟩]⟩)] [1] 20).1 - 20,
            lockForAddress (fun bs => bs) [3]⟩]
        else [])) :=
  ⟨by decide,
    (newTransaction_spec (fun bs => bs) (fun bs => bs) (fun bs => bs) [1] [3] [4] 20
      [([9], ⟨[⟨15, [1]⟩, ⟨10, [1]⟩]⟩)]).2 (by decide)⟩

/-- The signature buffer stored by `Sign` (transactions.go line 286):
`append(r.Bytes(), s.Bytes()...)` — the two `math/big` minimal
encodings concatenated, with no padding.  `NewKeyPair` (wallet.go)
builds the public key the same way from X and Y. -/
def sigBytesOf (r s : Nat) : Bytes := natBytes r ++ natBytes s

/-- `Verify`'s split of a stored buffer at half its length
(transactions.go lines 340-352): `buf[:(len/2)]` and `buf[(len/2):]`. -/
def splitHalf (bs : Bytes) : Bytes × Bytes :=
  (bs.take (bs.length / 2), bs.drop (bs.length / 2))

/-- C4 counterexample: the stored signature is not two exactly-32-byte
halves and the half-split does not always recover the signed pair.
`big.Int.Bytes` emits minimal encodings, so for r = 256, s = 1 the
buffer is the 3 bytes `[1, 0, 1]` (not 64 bytes) and the front half
recovers 1, not 256. -/
theorem sigSplit_counterexample :
    (sigBytesOf 256 1).length ≠ 64 ∧
    toBigInt (splitHalf (sigBytesOf 256 1)).1 ≠ 256 := by decide

/-- C4 amended: the stored signature is `r.Bytes() ‖ s.Bytes()` with
minimal (unpadded) big-endian encodings, and the half-length split in
`Verify` recovers exactly the signed `(r, s)` pair precisely when the
two encodings have equal length (in particular when both coordinates
occupy the full 32 bytes); the same split rule applies to the
public-key buffer `X.Bytes() ‖ Y.Bytes()`. -/
theorem sigSplit_amended (r s : Nat)
    (hlen : (natBytes r).length = (natBytes s).length) :
    (splitHalf (sigBytesOf r s)).1 = natBytes r ∧
    (splitHalf (sigBytesOf r s)).2 = natBytes s ∧
    toBigInt (splitHalf (sigBytesOf r s)).1 = r ∧
    toBigInt (splitHalf (sigBytesOf r s)).2 = s := by
  have hl : (sigBytesOf r s).length / 2 = (natBytes r).length := by
    rw [sigBytesOf, List.length_append, hlen]
    omega
  have h1 : (splitHalf (sigBytesOf r s)).1 = natBytes r := by
    show (sigBytesOf r s).take ((sigBytesOf r s).length / 2) = natBytes r
    rw [hl, sigBytesOf, List.take_left]
  have h2 : (splitHalf (sigBytesOf r s)).2 = natBytes s := by
    show (sigBytesOf r s).drop ((sigBytesOf r s).length / 2) = natBytes s
    rw [hl, sigBytesOf, List.drop_left]
  exact ⟨h1, h2, by rw [h1, toBigInt_natBytes], by rw [h2, toBigInt_natBytes]⟩

/-- Witness for the amended C4 at r = 2, s = 3 (equal one-byte
encodings). -/
theorem sigSplit_amended_witness :
    (natBytes 2).length = (natBytes 3).length ∧
    toBigInt (splitHalf (sigBytesOf 2 3)).1 = 2 ∧
    toBigInt (splitHalf (sigBytesOf 2 3)).2 = 3 :=
  ⟨by decide, (sigSplit_amended 2 3 (by decide)).2.2.1, (sigSplit_amended 2 3 (by decide)).2.2.2⟩

theorem splitHalf_append_eq (a b : Bytes) (hlen : a.length = b.length) :
    splitHalf (a ++ b) = (a, b) := by
  have hl : (a ++ b).length / 2 = a.length := by
    rw [List.length_append, hlen]
    omega
  rw [splitHalf, hl, List.take_left, List.drop_left]

/-- `Transaction.TrimmedCopy` (transactions.go): inputs keep only
`(id, out)`, signatures and pubkeys are nil; outputs copied verbatim. -/
def trimmedCopy (tx : Transaction) : Transaction :=
  ⟨tx.id,
   tx.inputs.map (fun i => ⟨i.id, i.out, [], []⟩),
   tx.outputs.map (fun o => ⟨o.value, o.pubKeyHash⟩)⟩

/-- `prevTXs[hex.EncodeToString(in.ID)]`: the Go map is keyed by the
hex string of the id; hex encoding is injective, so the model keys by
the raw id bytes. -/
def prevLookup (prevTxs : List (Bytes × Transaction)) (id : Bytes) : Option Transaction :=
  (prevTxs.find? (fun kv => kv.1 = id)).map Prod.snd

/-- Go slice indexing with an `int` index: panics (`none`) when the
index is negative or out of range. -/
def listGetInt (l : List α) (i : Int) : Option α :=
  if i < 0 then none else l[i.toNat]?

/-- Replace the element at one position. -/
def modifyNth (f : α → α) : Nat → List α → List α
  | _, [] => []
  | 0, a :: as => f a :: as
  | n + 1, a :: as => a :: modifyNth f n as

/-- `txCopy.Inputs[i].<field> = v` on a transaction value. -/
def modifyInputs (tx : Transaction) (i : Nat) (f : TxInput → TxInput) : Transaction :=
  { tx with inputs := modifyNth f i tx.inputs }

/-- The panic guard shared by `Sign` and `Verify`: every input's
referenced previous transaction must be present with a non-nil id. -/
def prevTxsOk (prevTxs : List (Bytes × Transaction)) (tx : Transaction) : Bool :=
  tx.inputs.all (fun i =>
    match prevLookup prevTxs i.id with
    | some p => decide (p.id ≠ [])
    | none => false)

/-- The per-input loop of `Transaction.Sign` (transactions.go lines
271-289): for each index, set the copy's signature to nil and its
pubkey to the referenced output's pub-key-hash, hash the copy as the
message digest, reset the pubkey, ECDSA-sign the digest and store
`r.Bytes() ‖ s.Bytes()` on the real input. -/
def txSignLoop (sha : Bytes → Bytes) (sign : Nat → Bytes → Nat × Nat) (privKey : Nat)
    (prevTxs : List (Bytes × Transaction)) :
    List Nat → Transaction → Transaction → Option Transaction
  | [], _, txReal => some txReal
  | i :: rest, txC, txReal =>
    match txC.inputs[i]? with
    | none => none
    | some cin =>
      match prevLookup prevTxs cin.id with
      | none => none
      | some prevTX =>
        match listGetInt prevTX.outputs cin.out with
        | none => none
        | some prevOut =>
          let txC1 := modifyInputs txC i (fun inp => { inp with signature := [] })
          let txC2 := modifyInputs txC1 i (fun inp => { inp with pubKey := prevOut.pubKeyHash })
          let d := txHash sha txC2
          let txC3 := modifyInputs { txC2 with id := d } i (fun inp => { inp with pubKey := [] })
          let rs := sign privKey d
          txSignLoop sha sign privKey prevTxs rest txC3
            (modifyInputs txReal i (fun inp => { inp with signature := sigBytesOf rs.1 rs.2 }))

/-- `Transaction.Sign` (transactions.go): no-op on a coinbase, panic
when a referenced previous transaction is absent, else run the
signing loop over all input indices starting from `TrimmedCopy`. -/
def txSign (sha : Bytes → Bytes) (sign : Nat → Bytes → Nat × Nat) (privKey : Nat)
    (prevTxs : List (Bytes × Transaction)) (tx : Transaction) : Option Transaction :=
  if isCoinbase tx then some tx
  else if prevTxsOk prevTxs tx then
    txSignLoop sha sign privKey prevTxs (List.range tx.inputs.length) (trimmedCopy tx) tx
  else none

/-- The per-input loop of `Transaction.Verify` (transactions.go lines
325-360): recompute the digest exactly as in `Sign`, split the stored
signature into (r, s) and the stored pubkey into (X, Y) at half
length, and ECDSA-verify; return false on the first failure. -/
def txVerifyLoop (sha : Bytes → Bytes) (verify : Nat → Nat → Bytes → Nat → Nat → Bool)
    (prevTxs : List (Bytes × Transaction)) :
    List Nat → Transaction → Transaction → Option Bool
  | [], _, _ => some true
  | i :: rest, txC, tx =>
    match tx.inputs[i]? with
    | none => none
    | some rin =>
      match prevLookup prevTxs rin.id with
      | none => none
      | some prevTX =>
        match listGetInt prevTX.outputs rin.out with
        | none => none
        | some prevOut =>
          let txC1 := modifyInputs txC i (fun inp => { inp with signature := [] })
          let txC2 := modifyInputs txC1 i (fun inp => { inp with pubKey := prevOut.pubKeyHash })
          let d := txHash sha txC2
          let txC3 := modifyInputs { txC2 with id := d } i (fun inp => { inp with pubKey := [] })
          let rs := splitHalf rin.signature
          let xy := splitHalf rin.pubKey
          if verify (toBigInt xy.1) (toBigInt xy.2) d (toBigInt rs.1) (toBigInt rs.2)
          then txVerifyLoop sha verify prevTxs rest txC3 tx
          else some false

/-- `Transaction.Verify` (transactions.go): true unconditionally on a
coinbase, panic when a referenced previous transaction is absent,
else run the verification loop over all input indices. -/
def txVerify (sha : Bytes → Bytes) (verify : Nat → Nat → Bytes → Nat → Nat → Bool)
    (prevTxs : List (Bytes × Transaction)) (tx : Transaction) : Option Bool :=
  if isCoinbase tx then some true
  else if prevTxsOk prevTxs tx then
    txVerifyLoop sha verify prevTxs (List.range tx.inputs.length) (trimmedCopy tx) tx
  else none

/-- A deterministic stand-in for `ecdsa.Sign` that emits the valid but
short-vs-long coordinate pair r = 256, s = 1. -/
def cexSign : Nat → Bytes → Nat × Nat := fun _ _ => (256, 1)

/-- A sound stand-in for `ecdsa.Verify` for the key with public
coordinates (7, 9): accepts exactly the signatures `cexSign` emits. -/
def cexVerify : Nat → Nat → Bytes → Nat → Nat → Bool :=
  fun x y _ r s => decide (x = 7 ∧ y = 9 ∧ r = 256 ∧ s = 1)

/-- A previous transaction holding the output being spent. -/
def cexPrevTx : Transaction := ⟨[3], [], [⟨10, [5]⟩]⟩

/-- The transaction to sign: one input referencing `cexPrevTx`'s
output 0 and carrying the signer's serialized public key
`natBytes 7 ++ natBytes 9 = [7, 9]`. -/
def cexTx : Transaction := ⟨[9], [⟨[3], 0, [], [7, 9]⟩], [⟨10, [6]⟩]⟩

/-- C2 counterexample: a non-coinbase transaction whose single input
references a present previous transaction and carries the signing
wallet's serialized public key, signed with an ECDSA primitive that
verifies its own signatures — yet `Sign` then `Verify` returns false,
because the unpadded `r.Bytes() ‖ s.Bytes()` buffer `[1, 0, 1]`
splits at half length into r = 1, s = 1 instead of (256, 1).  Real
P-256 ECDSA emits such unequal-length coordinate pairs with
probability about 1/256 per signature, so the claim fails on the
code. -/
theorem txSignVerify_counterexample :
    (∀ d, cexVerify 7 9 d (cexSign 5 d).1 (cexSign 5 d).2 = true) ∧
    (∀ inp ∈ cexTx.inputs, inp.pubKey = natBytes 7 ++ natBytes 9) ∧
    (∀ inp ∈ cexTx.inputs, prevLookup [([3], cexPrevTx)] inp.id = some cexPrevTx ∧
      cexPrevTx.id ≠ [] ∧ (listGetInt cexPrevTx.outputs inp.out).isSome = true) ∧
    isCoinbase cexTx = false ∧
    ((txSign (fun bs => bs) cexSign 5 [([3], cexPrevTx)] cexTx).bind
      (txVerify (fun bs => bs) cexVerify [([3], cexPrevTx)])) = some false :=
  ⟨fun d => rfl, by decide, by decide, by decide, by decide⟩

theorem modifyNth_length (f : α → α) :
    ∀ (i : Nat) (l : List α), (modifyNth f i l).length = l.length := by
  intro i l
  induction l generalizing i with
  | nil => simp [modifyNth]
  | cons a as ih =>
    match i with
    | 0 => simp [modifyNth]
    | n + 1 => simp [modifyNth, ih]

theorem getElem?_modifyNth_ne (f : α → α) :
    ∀ (i j : Nat) (l : List α), i ≠ j → (modifyNth f i l)[j]? = l[j]? := by
  intro i j l
  induction l generalizing i j with
  | nil => intro _; simp [modifyNth]
  | cons a as ih =>
    intro hne
    match i, j with
    | 0, 0 => exact absurd rfl hne
    | 0, m + 1 => simp [modifyNth]
    | n + 1, 0 => simp [modifyNth]
    | n + 1, m + 1 =>
      simp only [modifyNth, List.getElem?_cons_succ]
      exact ih n m (by omega)

theorem getElem?_modifyNth_eq (f : α → α) :
    ∀ (i : Nat) (l : List α), (modifyNth f i l)[i]? = (l[i]?).map f := by
  intro i l
  induction l generalizing i with
  | nil => simp [modifyNth]
  | cons a as ih =>
    match i with
    | 0 => simp [modifyNth]
    | n + 1 =>
      simp only [modifyNth, List.getElem?_cons_succ]
      exact ih n

theorem modifyNth_eq_self (f : α → α) :
    ∀ (i : Nat) (l : List α), (∀ a, l[i]? = some a → f a = a) → modifyNth f i l = l := by
  intro i l
  induction l generalizing i with
  | nil => intro _; simp [modifyNth]
  | cons a as ih =>
    intro h
    match i with
    | 0 =>
      have := h a (by simp)
      simp [modifyNth, this]
    | n + 1 =>
      simp only [modifyNth, List.cons.injEq, true_and]
      exact ih n (fun x hx => h x (by simpa using hx))

theorem modifyNth_modifyNth (f g : α → α) :
    ∀ (i : Nat) (l : List α),
      modifyNth f i (modifyNth g i l) = modifyNth (fun a => f (g a)) i l := by
  intro i l
  induction l generalizing i with
  | nil => simp [modifyNth]
  | cons a as ih =>
    match i with
    | 0 => simp [modifyNth]
    | n + 1 =>
      simp only [modifyNth, List.cons.injEq, true_and]
      exact ih n

/-- The message digest both `Sign` and `Verify` compute for input `i`:
the hash of the trimmed transaction whose input `i` carries the
referenced output's pub-key-hash (the id is zeroed by `Hash`, so its
value is irrelevant). -/
def loopDigest (sha : Bytes → Bytes) (bi : List TxInput) (bo : List TxOutput)
    (i : Nat) (pkh : Bytes) : Bytes :=
  txHash sha ⟨[], modifyNth (fun inp => { inp with pubKey := pkh }) i bi, bo⟩

theorem txSignLoop_char (sha : Bytes → Bytes) (sign : Nat → Bytes → Nat × Nat) (k : Nat)
    (prevTxs : List (Bytes × Transaction)) (bi : List TxInput) (bo : List TxOutput)
    (pkh : Nat → Bytes)
    (hnil : ∀ inp ∈ bi, inp.signature = [] ∧ inp.pubKey = []) :
    ∀ (idxs : List Nat) (txC txR : Transaction),
      txC.inputs = bi → txC.outputs = bo → idxs.Nodup →
      (∀ i ∈ idxs, ∃ cin prevTX prevOut, bi[i]? = some cin ∧
        prevLookup prevTxs cin.id = some prevTX ∧
        listGetInt prevTX.outputs cin.out = some prevOut ∧
        prevOut.pubKeyHash = pkh i) →
      ∃ tx2, txSignLoop sha sign k prevTxs idxs txC txR = some tx2 ∧
        tx2.id = txR.id ∧ tx2.outputs = txR.outputs ∧
        tx2.inputs.length = txR.inputs.length ∧
        (∀ j, j ∉ idxs → tx2.inputs[j]? = txR.inputs[j]?) ∧
        (∀ i ∈ idxs, tx2.inputs[i]? = (txR.inputs[i]?).map (fun inp =>
          { inp with signature :=
            (sigBytesOf (sign k (loopDigest sha bi bo i (pkh i))).1
              (sign k (loopDigest sha bi bo i (pkh i))).2) })) := by
  intro idxs
  induction idxs with
  | nil =>
    intro txC txR _ _ _ _
    exact ⟨txR, rfl, rfl, rfl, rfl, fun j _ => rfl, fun i hi => absurd hi (List.not_mem_nil i)⟩
  | cons i rest ih =>
    intro txC txR h1 h2 hnd hsel
    obtain ⟨cin, prevTX, prevOut, hcin, hpl, hpo, hpkh⟩ := hsel i (by simp)
    have hmem : cin ∈ bi := List.getElem?_mem hcin
    obtain ⟨hni, hnd2⟩ := List.nodup_cons.mp hnd
    have hself1 : modifyNth (fun inp => { inp with signature := ([] : Bytes) }) i bi = bi := by
      apply modifyNth_eq_self
      intro a ha
      rw [hcin] at ha
      cases ha
      obtain ⟨hs, _⟩ := hnil cin hmem
      cases cin
      simp_all
    rw [txSignLoop, h1, hcin]
    simp only [hpl, hpo]
    set txC2 := modifyInputs (modifyInputs txC i (fun inp => { inp with signature := [] })) i
      (fun inp => { inp with pubKey := prevOut.pubKeyHash }) with hC2
    have hA : ({ txC2 with id := ([] : Bytes) } : Transaction) =
        ⟨[], modifyNth (fun inp => { inp with pubKey := pkh i }) i bi, bo⟩ := by
      rw [hC2]
      simp only [modifyInputs]
      rw [h1, hself1, hpkh, h2]
    have hd : txHash sha txC2 = loopDigest sha bi bo i (pkh i) := by
      rw [txHash, hA]
      rfl
    have h1' : (modifyInputs { txC2 with id := txHash sha txC2 } i
        (fun inp => { inp with pubKey := ([] : Bytes) })).inputs = bi := by
      simp only [modifyInputs, hC2]
      rw [h1, hself1, modifyNth_modifyNth]
      apply modifyNth_eq_self
      intro a ha
      rw [hcin] at ha
      cases ha
      obtain ⟨_, hp⟩ := hnil cin hmem
      cases cin
      simp_all
    have h2' : (modifyInputs { txC2 with id := txHash sha txC2 } i
        (fun inp => { inp with pubKey := ([] : Bytes) })).outputs = bo := by
      simp only [modifyInputs, hC2]
      exact h2
    obtain ⟨tx2, heq, hid, hout, hlen, hnot, hin⟩ :=
      ih (modifyInputs { txC2 with id := txHash sha txC2 } i
          (fun inp => { inp with pubKey := ([] : Bytes) }))
        (modifyInputs txR i (fun inp =>
          { inp with signature :=
            (sigBytesOf (sign k (txHash sha txC2)).1 (sign k (txHash sha txC2)).2) }))
        h1' h2' hnd2 (fun j hj => hsel j (List.mem_cons_of_mem i hj))
    refine ⟨tx2, heq, hid, hout, ?_, ?_, ?_⟩
    · rw [hlen]
      simp only [modifyInputs]
      exact modifyNth_length _ _ _
    · intro j hj
      simp only [List.mem_cons, not_or] at hj
      rw [hnot j hj.2]
      simp only [modifyInputs]
      exact getElem?_modifyNth_ne _ i j _ (fun hc => hj.1 hc.symm)
    · intro i1 hi1
      rcases List.mem_cons.mp hi1 with hieq | hirest
      · subst hieq
        rw [hnot i1 hni]
        simp only [modifyInputs]
        rw [getElem?_modifyNth_eq, hd]
      · have hne : i ≠ i1 := fun hc => hni (hc ▸ hirest)
        rw [hin i1 hirest]
        simp only [modifyInputs]
        rw [getElem?_modifyNth_ne _ i i1 _ hne]

theorem txVerifyLoop_true (sha : Bytes → Bytes) (verify : Nat → Nat → Bytes → Nat → Nat → Bool)
    (prevTxs : List (Bytes × Transaction)) (bi : List TxInput) (bo : List TxOutput)
    (pkh : Nat → Bytes) (tx2 : Transaction)
    (hnil : ∀ inp ∈ bi, inp.signature = [] ∧ inp.pubKey = []) :
    ∀ (idxs : List Nat) (txC : Transaction),
      txC.inputs = bi → txC.outputs = bo →
      (∀ i ∈ idxs, ∃ rin prevTX prevOut, tx2.inputs[i]? = some rin ∧
        prevLookup prevTxs rin.id = some prevTX ∧
        listGetInt prevTX.outputs rin.out = some prevOut ∧
        prevOut.pubKeyHash = pkh i ∧
        verify (toBigInt (splitHalf rin.pubKey).1) (toBigInt (splitHalf rin.pubKey).2)
          (loopDigest sha bi bo i (pkh i))
          (toBigInt (splitHalf rin.signature).1) (toBigInt (splitHalf rin.signature).2) = true) →
      txVerifyLoop sha verify prevTxs idxs txC tx2 = some true := by
  intro idxs
  induction idxs with
  | nil => intro txC _ _ _; rfl
  | cons i rest ih =>
    intro txC h1 h2 hsel
    obtain ⟨rin, prevTX, prevOut, hrin, hpl, hpo, hpkh, hver⟩ := hsel i (by simp)
    have hself1 : modifyNth (fun inp => { inp with signature := ([] : Bytes) }) i bi = bi := by
      apply modifyNth_eq_self
      intro a ha
      obtain ⟨hs, _⟩ := hnil a (List.getElem?_mem ha)
      cases a
      simp_all
    rw [txVerifyLoop, hrin]
    simp only [hpl, hpo]
    set txC2 := modifyInputs (modifyInputs txC i (fun inp => { inp with signature := [] })) i
      (fun inp => { inp with pubKey := prevOut.pubKeyHash }) with hC2
    have hA : ({ txC2 with id := ([] : Bytes) } : Transaction) =
        ⟨[], modifyNth (fun inp => { inp with pubKey := pkh i }) i bi, bo⟩ := by
      rw [hC2]
      simp only [modifyInputs]
      rw [h1, hself1, hpkh, h2]
    have hd : txHash sha txC2 = loopDigest sha bi bo i (pkh i) := by
      rw [txHash, hA]
      rfl
    rw [hd, hver]
    have h1' : (modifyInputs { txC2 with id := loopDigest sha bi bo i (pkh i) } i
        (fun inp => { inp with pubKey := ([] : Bytes) })).inputs = bi := by
      simp only [modifyInputs, hC2]
      rw [h1, hself1, modifyNth_modifyNth]
      apply modifyNth_eq_self
      intro a ha
      obtain ⟨_, hp⟩ := hnil a (List.getElem?_mem ha)
      cases a
      simp_all
    have h2' : (modifyInputs { txC2 with id := loopDigest sha bi bo i (pkh i) } i
        (fun inp => { inp with pubKey := ([] : Bytes) })).outputs = bo := by
      simp only [modifyInputs, hC2]
      exact h2
    exact ih _ h1' h2' (fun j hj => hsel j (List.mem_cons_of_mem i hj))

theorem trimmedCopy_inputs_nil (tx : Transaction) :
    ∀ inp ∈ (trimmedCopy tx).inputs, inp.signature = [] ∧ inp.pubKey = [] := by
  intro inp hmem
  simp only [trimmedCopy, List.mem_map] at hmem
  obtain ⟨orig, _, rfl⟩ := hmem
  exact ⟨rfl, rfl⟩

theorem txSignVerify_main (sha : Bytes → Bytes) (sign : Nat → Bytes → Nat × Nat)
    (verify : Nat → Nat → Bytes → Nat → Nat → Bool) (k x y : Nat)
    (prevTxs : List (Bytes × Transaction)) (tx tx2 : Transaction)
    (hCorrect : ∀ d, verify x y d (sign k d).1 (sign k d).2 = true)
    (hSigLen : ∀ d, (natBytes (sign k d).1).length = (natBytes (sign k d).2).length)
    (hPubLen : (natBytes x).length = (natBytes y).length)
    (hPub : ∀ inp ∈ tx.inputs, inp.pubKey = natBytes x ++ natBytes y)
    (hPrev : ∀ inp ∈ tx.inputs, ∃ p pout, prevLookup prevTxs inp.id = some p ∧
      p.id ≠ [] ∧ listGetInt p.outputs inp.out = some pout)
    (hSign : txSign sha sign k prevTxs tx = some tx2) :
    txVerify sha verify prevTxs tx2 = some true := by
  by_cases hcb : isCoinbase tx = true
  · rw [txSign, if_pos hcb] at hSign
    obtain rfl := Option.some.inj hSign
    rw [txVerify, if_pos hcb]
  · have hcbf : isCoinbase tx = false := by simp at hcb; exact hcb
    have hok : prevTxsOk prevTxs tx = true := by
      rw [prevTxsOk, List.all_eq_true]
      intro inp hmem
      obtain ⟨p, pout, hp, hpid, hpo⟩ := hPrev inp hmem
      rw [hp]
      simpa using hpid
    rw [txSign, if_neg hcb, if_pos hok] at hSign
    -- digest parameters for the loop lemmas
    set pkh : Nat → Bytes := fun i =>
      (((tx.inputs[i]?).bind (fun inp => (prevLookup prevTxs inp.id).bind
        (fun p => listGetInt p.outputs inp.out))).map TxOutput.pubKeyHash).getD []
      with hpkhdef
    have hsel : ∀ i ∈ List.range tx.inputs.length,
        ∃ cin prevTX prevOut, (trimmedCopy tx).inputs[i]? = some cin ∧
          prevLookup prevTxs cin.id = some prevTX ∧
          listGetInt prevTX.outputs cin.out = some prevOut ∧
          prevOut.pubKeyHash = pkh i := by
      intro i hi
      rw [List.mem_range] at hi
      have hsome : tx.inputs[i]? = some tx.inputs[i] := List.getElem?_eq_getElem hi
      obtain ⟨p, pout, hp, hpid, hpo⟩ := hPrev tx.inputs[i] (List.getElem_mem hi)
      refine ⟨⟨tx.inputs[i].id, tx.inputs[i].out, [], []⟩, p, pout, ?_, ?_, ?_, ?_⟩
      · rw [trimmedCopy]
        show (tx.inputs.map _)[i]? = _
        rw [List.getElem?_map, hsome]
        rfl
      · exact hp
      · exact hpo
      · rw [hpkhdef]
        simp only [hsome, Option.some_bind, hp, hpo, Option.map_some', Option.getD_some]
    obtain ⟨tx2c, heq, hid, hout, hlen, hnot, hin⟩ :=
      txSignLoop_char sha sign k prevTxs (trimmedCopy tx).inputs (trimmedCopy tx).outputs pkh
        (trimmedCopy_inputs_nil tx) (List.range tx.inputs.length) (trimmedCopy tx) tx
        rfl rfl (List.nodup_range _)
        (by
          intro i hi
          exact hsel i hi)
    rw [heq] at hSign
    obtain rfl := Option.some.inj hSign
    have hlen2 : tx2c.inputs.length = tx.inputs.length := hlen
    have hcb2 : isCoinbase tx2c = false := by
      rcases h2i : tx2c.inputs with _ | ⟨inp2, rest2⟩
      · rw [isCoinbase, h2i]
      · rcases rest2 with _ | ⟨b2, rest3⟩
        · have hlen1 : tx.inputs.length = 1 := by
            rw [← hlen2, h2i]
            rfl
          obtain ⟨inp, hinp⟩ := List.length_eq_one.mp hlen1
          have h00 := hin 0 (List.mem_range.mpr (by omega))
          rw [h2i, hinp] at h00
          simp only [List.getElem?_cons_zero, Option.map_some', Option.some.injEq] at h00
          rw [isCoinbase, h2i, h00]
          rw [isCoinbase, hinp] at hcbf
          exact hcbf
        · rw [isCoinbase, h2i]
    have hok2 : prevTxsOk prevTxs tx2c = true := by
      rw [prevTxsOk, List.all_eq_true]
      intro inp2 hmem2
      obtain ⟨j, hj⟩ := List.getElem?_of_mem hmem2
      have hjlt : j < tx.inputs.length := by
        by_contra hge
        rw [List.getElem?_eq_none (by omega)] at hj
        exact Option.noConfusion hj
      have hdesc := hin j (List.mem_range.mpr hjlt)
      rw [hj, List.getElem?_eq_getElem hjlt] at hdesc
      simp only [Option.map_some', Option.some.injEq] at hdesc
      obtain ⟨p, pout, hp, hpid, hpo⟩ := hPrev tx.inputs[j] (List.getElem_mem hjlt)
      rw [hdesc]
      show (match prevLookup prevTxs tx.inputs[j].id with
        | some p => decide (p.id ≠ [])
        | none => false) = true
      rw [hp]
      simpa using hpid
    have hbi2 : (trimmedCopy tx2c).inputs = (trimmedCopy tx).inputs := by
      rw [trimmedCopy, trimmedCopy]
      apply List.ext_getElem?
      intro j
      rw [List.getElem?_map, List.getElem?_map]
      by_cases hjlt : j < tx.inputs.length
      · have hdesc := hin j (List.mem_range.mpr hjlt)
        rw [hdesc, List.getElem?_eq_getElem hjlt]
        rfl
      · rw [List.getElem?_eq_none (by omega), List.getElem?_eq_none (by omega)]
    have hbo2 : (trimmedCopy tx2c).outputs = (trimmedCopy tx).outputs := by
      rw [trimmedCopy, trimmedCopy, hout]
    rw [txVerify, if_neg (by rw [hcb2]; exact Bool.false_ne_true), if_pos hok2]
    apply txVerifyLoop_true sha verify prevTxs (trimmedCopy tx).inputs (trimmedCopy tx).outputs
      pkh tx2c (trimmedCopy_inputs_nil tx) (List.range tx2c.inputs.length) (trimmedCopy tx2c)
      hbi2 hbo2
    intro i hi
    rw [List.mem_range, hlen2] at hi
    have hdesc := hin i (List.mem_range.mpr hi)
    rw [List.getElem?_eq_getElem hi] at hdesc
    simp only [Option.map_some'] at hdesc
    obtain ⟨p, pout, hp, hpid, hpo⟩ := hPrev tx.inputs[i] (List.getElem_mem hi)
    have hpkhi : pkh i = pout.pubKeyHash := by
      rw [hpkhdef]
      simp only [List.getElem?_eq_getElem hi, Option.some_bind, hp, hpo,
        Option.map_some', Option.getD_some]
    refine ⟨_, p, pout, hdesc, hp, hpo, hpkhi.symm, ?_⟩
    show verify
        (toBigInt (splitHalf tx.inputs[i].pubKey).1) (toBigInt (splitHalf tx.inputs[i].pubKey).2)
        (loopDigest sha (trimmedCopy tx).inputs (trimmedCopy tx).outputs i (pkh i))
        (toBigInt (splitHalf (sigBytesOf
          (sign k (loopDigest sha (trimmedCopy tx).inputs (trimmedCopy tx).outputs i (pkh i))).1
          (sign k (loopDigest sha (trimmedCopy tx).inputs (trimmedCopy tx).outputs i (pkh i))).2)).1)
        (toBigInt (splitHalf (sigBytesOf
          (sign k (loopDigest sha (trimmedCopy tx).inputs (trimmedCopy tx).outputs i (pkh i))).1
          (sign k (loopDigest sha (trimmedCopy tx).inputs (trimmedCopy tx).outputs i (pkh i))).2)).2)
        = true
    rw [hPub tx.inputs[i] (List.getElem_mem hi), splitHalf_append_eq _ _ hPubLen]
    rw [sigBytesOf, splitHalf_append_eq _ _ (hSigLen _)]
    simp only [toBigInt_natBytes]
    exact hCorrect _

theorem txSign_isSome (sha : Bytes → Bytes) (sign : Nat → Bytes → Nat × Nat) (k : Nat)
    (prevTxs : List (Bytes × Transaction)) (tx : Transaction)
    (hPrev : ∀ inp ∈ tx.inputs, ∃ p pout, prevLookup prevTxs inp.id = some p ∧
      p.id ≠ [] ∧ listGetInt p.outputs inp.out = some pout) :
    ∃ t2, txSign sha sign k prevTxs tx = some t2 := by
  by_cases hcb : isCoinbase tx = true
  · exact ⟨tx, by rw [txSign, if_pos hcb]⟩
  · have hok : prevTxsOk prevTxs tx = true := by
      rw [prevTxsOk, List.all_eq_true]
      intro inp hmem
      obtain ⟨p, pout, hp, hpid, hpo⟩ := hPrev inp hmem
      rw [hp]
      simpa using hpid
    rw [txSign, if_neg hcb, if_pos hok]
    set pkh : Nat → Bytes := fun i =>
      (((tx.inputs[i]?).bind (fun inp => (prevLookup prevTxs inp.id).bind
        (fun p => listGetInt p.outputs inp.out))).map TxOutput.pubKeyHash).getD []
      with hpkhdef
    obtain ⟨tx2c, heq, _⟩ :=
      txSignLoop_char sha sign k prevTxs (trimmedCopy tx).inputs (trimmedCopy tx).outputs pkh
        (trimmedCopy_inputs_nil tx) (List.range tx.inputs.length) (trimmedCopy tx) tx
        rfl rfl (List.nodup_range _)
        (by
          intro i hi
          rw [List.mem_range] at hi
          have hsome : tx.inputs[i]? = some tx.inputs[i] := List.getElem?_eq_getElem hi
          obtain ⟨p, pout, hp, hpid, hpo⟩ := hPrev tx.inputs[i] (List.getElem_mem hi)
          refine ⟨⟨tx.inputs[i].id, tx.inputs[i].out, [], []⟩, p, pout, ?_, hp, hpo, ?_⟩
          · rw [trimmedCopy]
            show (tx.inputs.map _)[i]? = _
            rw [List.getElem?_map, hsome]
            rfl
          · rw [hpkhdef]
            simp only [hsome, Option.some_bind, hp, hpo, Option.map_some', Option.getD_some])
    exact ⟨tx2c, heq⟩

/-- C2 (amended): for every transaction whose inputs all reference
previous transactions present in the supplied map and carry the
signing wallet's serialized public key, `Sign` succeeds, and —
provided the ECDSA primitive verifies its own signatures, every
emitted `(r, s)` pair has equal-length byte encodings, and the
public coordinates `(X, Y)` have equal-length byte encodings (the
amendment forced by the unpadded buffers, see the counterexample) —
`Verify` after `Sign` returns true; `Verify` returns true
unconditionally on a coinbase transaction. -/
theorem txSignVerify_spec (sha : Bytes → Bytes) (sign : Nat → Bytes → Nat × Nat)
    (verify : Nat → Nat → Bytes → Nat → Nat → Bool) (k x y : Nat)
    (prevTxs : List (Bytes × Transaction)) (tx : Transaction)
    (hCorrect : ∀ d, verify x y d (sign k d).1 (sign k d).2 = true)
    (hSigLen : ∀ d, (natBytes (sign k d).1).length = (natBytes (sign k d).2).length)
    (hPubLen : (natBytes x).length = (natBytes y).length)
    (hPub : ∀ inp ∈ tx.inputs, inp.pubKey = natBytes x ++ natBytes y)
    (hPrev : ∀ inp ∈ tx.inputs, ∃ p pout, prevLookup prevTxs inp.id = some p ∧
      p.id ≠ [] ∧ listGetInt p.outputs inp.out = some pout) :
    (∃ t2, txSign sha sign k prevTxs tx = some t2) ∧
    (∀ t2, txSign sha sign k prevTxs tx = some t2 →
      txVerify sha verify prevTxs t2 = some true) ∧
    (∀ cb, isCoinbase cb = true → txVerify sha verify prevTxs cb = some true) :=
  ⟨txSign_isSome sha sign k prevTxs tx hPrev,
   fun t2 hSign => txSignVerify_main sha sign verify k x y prevTxs tx t2
     hCorrect hSigLen hPubLen hPub hPrev hSign,
   fun cb hcb => by rw [txVerify, if_pos hcb]⟩

/-- Witness for the amended C2 at a concrete one-input transaction
with equal-length coordinate encodings: signing stores `[2, 3]` and
verification succeeds. -/
theorem txSignVerify_spec_witness :
    txSign (fun bs => bs) (fun _ _ => (2, 3)) 5 [([3], ⟨[3], [], [⟨10, [5]⟩]⟩)]
      ⟨[9], [⟨[3], 0, [], [7, 9]⟩], [⟨10, [6]⟩]⟩ =
      some ⟨[9], [⟨[3], 0, [2, 3], [7, 9]⟩], [⟨10, [6]⟩]⟩ ∧
    txVerify (fun bs => bs) (fun x y _ r s => decide (x = 7 ∧ y = 9 ∧ r = 2 ∧ s = 3))
      [([3], ⟨[3], [], [⟨10, [5]⟩]⟩)]
      ⟨[9], [⟨[3], 0, [2, 3], [7, 9]⟩], [⟨10, [6]⟩]⟩ = some true := by
  have hmain := txSignVerify_spec (fun bs => bs) (fun _ _ => (2, 3))
    (fun x y _ r s => decide (x = 7 ∧ y = 9 ∧ r = 2 ∧ s = 3)) 5 7 9
    [([3], ⟨[3], [], [⟨10, [5]⟩]⟩)] ⟨[9], [⟨[3], 0, [], [7, 9]⟩], [⟨10, [6]⟩]⟩
    (fun d => rfl) (fun d => show (natBytes 2).length = (natBytes 3).length by decide)
    (by decide) (by decide)
    (by
      intro inp hmem
      rw [List.mem_singleton] at hmem
      subst hmem
      exact ⟨⟨[3], [], [⟨10, [5]⟩]⟩, ⟨10, [5]⟩, rfl, by decide, rfl⟩)
  have hs : txSign (fun bs => bs) (fun _ _ => (2, 3)) 5 [([3], ⟨[3], [], [⟨10, [5]⟩]⟩)]
      ⟨[9], [⟨[3], 0, [], [7, 9]⟩], [⟨10, [6]⟩]⟩ =
      some ⟨[9], [⟨[3], 0, [2, 3], [7, 9]⟩], [⟨10, [6]⟩]⟩ := by decide
  exact ⟨hs, hmain.2.1 _ hs⟩

/-- `txn.Get` on a utxo-prefixed key. -/
def storeGet (st : UtxoStore) (k : Bytes) : Option TxOutputs :=
  (st.find? (fun kv => kv.1 = k)).map Prod.snd

/-- `txn.Set` on a utxo-prefixed key (replace or append). -/
def storeSet (st : UtxoStore) (k : Bytes) (v : TxOutputs) : UtxoStore :=
  match st with
  | [] => [(k, v)]
  | (k0, v0) :: rest => if k0 = k then (k, v) :: rest else (k0, v0) :: storeSet rest k v

/-- `txn.Delete` on a utxo-prefixed key. -/
def storeDelete (st : UtxoStore) (k : Bytes) : UtxoStore :=
  match st with
  | [] => []
  | (k0, v0) :: rest => if k0 = k then rest else (k0, v0) :: storeDelete rest k

/-- The per-input body of `UTXOSet.Update` (utxo.go lines 105-137):
read the stored `TxOutputs` under the input's id (a failed `Get`
panics, hence `none`), keep every output whose index differs from
`in.Out`, delete the key when nothing remains, else write the
remainder back. -/
def spendInput (st : UtxoStore) (inp : TxInput) : Option UtxoStore :=
  match storeGet st inp.id with
  | none => none
  | some outs =>
    let updatedOuts := (outs.outputs.enum.filter
      (fun p => decide ((p.1 : Int) ≠ inp.out))).map Prod.snd
    if updatedOuts = [] then some (storeDelete st inp.id)
    else some (storeSet st inp.id ⟨updatedOuts⟩)

/-- The per-transaction body of `UTXOSet.Update` (utxo.go lines
102-150): spend every input of a non-coinbase transaction, then write
a fresh entry holding all of the transaction's outputs. -/
def updateTxStep (st : UtxoStore) (tx : Transaction) : Option UtxoStore :=
  (if isCoinbase tx = false then tx.inputs.foldlM spendInput st else some st).map
    (fun st1 => storeSet st1 tx.id ⟨tx.outputs⟩)

/-- `UTXOSet.Update` (utxo.go): fold the per-transaction step over
the block's transactions inside one store transaction. -/
def utxoUpdate (st : UtxoStore) (block : Block) : Option UtxoStore :=
  block.transactions.foldlM updateTxStep st

theorem filter_enumFrom_ne (l : List α) :
    ∀ (i : Nat) (t : Int),
      (((l.enumFrom i).filter (fun p => decide ((p.1 : Int) ≠ t))).map Prod.snd) =
        if (i : Int) ≤ t then l.eraseIdx (t - i).toNat else l := by
  induction l with
  | nil =>
    intro i t
    rw [List.enumFrom_nil, List.filter_nil, List.map_nil, List.eraseIdx_nil]
    split <;> rfl
  | cons a l ih =>
    intro i t
    rw [List.enumFrom_cons, List.filter_cons]
    by_cases hit : (i : Int) = t
    · rw [if_neg (by simp [hit])]
      rw [ih (i + 1) t]
      rw [if_neg (by push_cast; omega)]
      rw [if_pos (by omega)]
      have : (t - i).toNat = 0 := by omega
      rw [this, List.eraseIdx_cons_zero]
    · rw [if_pos (by simp [hit])]
      rw [List.map_cons, ih (i + 1) t]
      by_cases hle : (i : Int) ≤ t
      · rw [if_pos (by push_cast; omega), if_pos hle]
        have h1 : (t - i).toNat = (t - (i + 1)).toNat + 1 := by omega
        rw [h1, List.eraseIdx_cons_succ]
        rfl
      · rw [if_neg (by push_cast; omega), if_neg hle]

theorem storeGet_set_self (k : Bytes) (v : TxOutputs) :
    ∀ st : UtxoStore, storeGet (storeSet st k v) k = some v := by
  intro st
  induction st with
  | nil => simp [storeSet, storeGet, List.find?]
  | cons kv rest ih =>
    match kv with
    | (k0, v0) =>
      rw [storeSet]
      by_cases hk : k0 = k
      · rw [if_pos hk]
        simp [storeGet, List.find?]
      · rw [if_neg hk]
        rw [storeGet, List.find?]
        rw [decide_eq_false hk]
        exact ih

/-- C5: for every block given to `UTXOSet.Update` and every
non-coinbase input `(in.id, in.out)`, the `TxOutputs` stored under
the input's utxo key loses exactly the output at index `in.out` —
the remainder is written back, or the key is deleted when nothing
remains (a missing key panics) — and afterwards every transaction of
the block (coinbase included) gets a fresh utxo entry holding all of
its outputs.  Conjuncts: the non-coinbase and coinbase shapes of the
per-transaction step, the spend step as an `eraseIdx`, the panic
case, the freshly-written entry, and `Update` as the fold of the
step. -/
theorem utxoUpdate_spec :
    (∀ (st : UtxoStore) (tx : Transaction), isCoinbase tx = false →
      updateTxStep st tx =
        (tx.inputs.foldlM spendInput st).map (fun st1 => storeSet st1 tx.id ⟨tx.outputs⟩)) ∧
    (∀ (st : UtxoStore) (tx : Transaction), isCoinbase tx = true →
      updateTxStep st tx = some (storeSet st tx.id ⟨tx.outputs⟩)) ∧
    (∀ (st : UtxoStore) (inp : TxInput) (outs : TxOutputs),
      storeGet st inp.id = some outs → 0 ≤ inp.out →
      spendInput st inp = some (if outs.outputs.eraseIdx inp.out.toNat = []
        then storeDelete st inp.id
        else storeSet st inp.id ⟨outs.outputs.eraseIdx inp.out.toNat⟩)) ∧
    (∀ (st : UtxoStore) (inp : TxInput), storeGet st inp.id = none →
      spendInput st inp = none) ∧
    (∀ (st1 : UtxoStore) (tx : Transaction) (st2 : UtxoStore),
      updateTxStep st1 tx = some st2 → storeGet st2 tx.id = some ⟨tx.outputs⟩) ∧
    (∀ (st : UtxoStore) (b : Block),
      utxoUpdate st b = b.transactions.foldlM updateTxStep st) := by
  have herase : ∀ (outs : TxOutputs) (inp : TxInput), 0 ≤ inp.out →
      ((outs.outputs.enum.filter (fun p => decide ((p.1 : Int) ≠ inp.out))).map Prod.snd) =
        outs.outputs.eraseIdx inp.out.toNat := by
    intro outs inp hnn
    rw [List.enum, filter_enumFrom_ne outs.outputs 0 inp.out]
    rw [if_pos (by omega)]
    congr 1
    omega
  refine ⟨?_, ?_, ?_, ?_, ?_, fun st b => rfl⟩
  · intro st tx hcb
    rw [updateTxStep, if_pos hcb]
  · intro st tx hcb
    rw [updateTxStep, if_neg (by simp [hcb])]
    rfl
  · intro st inp outs hget hnn
    rw [spendInput, hget]
    simp only [herase outs inp hnn]
    split <;> rfl
  · intro st inp hget
    rw [spendInput, hget]
  · intro st1 tx st2 hstep
    rw [updateTxStep] at hstep
    rcases hfold : (if isCoinbase tx = false then List.foldlM spendInput st1 tx.inputs
        else some st1) with _ | st1m
    · rw [hfold] at hstep
      exact Option.noConfusion hstep
    · rw [hfold] at hstep
      simp only [Option.map_some', Option.some.injEq] at hstep
      rw [← hstep]
      exact storeGet_set_self tx.id ⟨tx.outputs⟩ st1m

/-- Witness for C5: spending output 0 of a two-output entry leaves
exactly the output at index 1. -/
theorem utxoUpdate_spec_witness :
    storeGet [([1], ⟨[⟨5, [2]⟩, ⟨6, [3]⟩]⟩)] ([1] : Bytes) = some ⟨[⟨5, [2]⟩, ⟨6, [3]⟩]⟩ ∧
    (0 : Int) ≤ 0 ∧
    spendInput [([1], ⟨[⟨5, [2]⟩, ⟨6, [3]⟩]⟩)] ⟨[1], 0, [], []⟩ =
      some (if ([⟨5, [2]⟩, ⟨6, [3]⟩] : List TxOutput).eraseIdx 0 = []
        then storeDelete [([1], ⟨[⟨5, [2]⟩, ⟨6, [3]⟩]⟩)] [1]
        else storeSet [([1], ⟨[⟨5, [2]⟩, ⟨6, [3]⟩]⟩)] [1]
          ⟨([⟨5, [2]⟩, ⟨6, [3]⟩] : List TxOutput).eraseIdx 0⟩) :=
  ⟨by decide, by decide,
    utxoUpdate_spec.2.2.1 [([1], ⟨[⟨5, [2]⟩, ⟨6, [3]⟩]⟩)] ⟨[1], 0, [], []⟩
      ⟨[⟨5, [2]⟩, ⟨6, [3]⟩]⟩ (by decide) (by decide)⟩

/-- The ASCII bytes of the string "block". -/
def blockKind : Bytes := [98, 108, 111, 99, 107]

/-- The ASCII bytes of the string "tx". -/
def txKind : Bytes := [116, 120]

/-- The Go zero value of `Transaction` (nil id, no inputs, no
outputs), which a map read returns for an absent key. -/
def zeroTransaction : Transaction := ⟨[], [], []⟩

/-- A message sent over TCP by a handler. -/
inductive SentMsg where
  | sentBlock (addr : Bytes) (b : Block)
  | sentTx (addr : Bytes) (t : Transaction)
deriving DecidableEq, Repr

/-- `chain.GetBlock` (blockchain.go): look the block up by hash;
error when absent. -/
def getBlock (chainStore : List (Bytes × Block)) (h : Bytes) : Option Block :=
  ((chainStore.find? (fun kv => kv.1 = h)).map Prod.snd)

/-- `memoryPool[hex(id)]`: the pool is keyed by the hex string of the
transaction id (hex encoding is injective, so the model keys by the
raw bytes); an absent key yields the zero value. -/
def poolLookup (pool : List (Bytes × Transaction)) (id : Bytes) : Option Transaction :=
  (pool.find? (fun kv => kv.1 = id)).map Prod.snd

/-- `HandleGetData` (handlers.go lines 569-597): in the "block"
branch, a failed `GetBlock` returns from the handler without sending
anything; in the "tx" branch the pool is read (zero value on a miss)
and the result is always sent. -/
def handleGetData (chainStore : List (Bytes × Block)) (pool : List (Bytes × Transaction))
    (p : GetDataPayload) : List SentMsg :=
  if p.type = blockKind then
    match getBlock chainStore p.id with
    | none => []
    | some b =>
      SentMsg.sentBlock p.addrFrom b ::
        (if p.type = txKind then
          [SentMsg.sentTx p.addrFrom ((poolLookup pool p.id).getD zeroTransaction)]
        else [])
  else
    if p.type = txKind then
      [SentMsg.sentTx p.addrFrom ((poolLookup pool p.id).getD zeroTransaction)]
    else []

/-- C10: a `getdata` request of type "tx" whose id is not in the
memory pool is not silently dropped — the handler reads the map's
zero value and sends a transaction with nil id and no inputs or
outputs back to the requester; the "block" branch, by contrast,
returns without sending anything when `GetBlock` fails. -/
theorem handleGetData_spec (chainStore : List (Bytes × Block))
    (pool : List (Bytes × Transaction)) (p : GetDataPayload) :
    (p.type = txKind → poolLookup pool p.id = none →
      handleGetData chainStore pool p = [SentMsg.sentTx p.addrFrom zeroTransaction] ∧
      zeroTransaction.id = [] ∧ zeroTransaction.inputs = [] ∧ zeroTransaction.outputs = []) ∧
    (p.type = blockKind → getBlock chainStore p.id = none →
      handleGetData chainStore pool p = []) := by
  constructor
  · intro htype hmiss
    refine ⟨?_, rfl, rfl, rfl⟩
    rw [handleGetData, if_neg (by rw [htype]; decide), if_pos htype, hmiss]
    rfl
  · intro htype hmiss
    rw [handleGetData, if_pos htype, hmiss]

/-- Witness for C10 at a concrete empty pool and chain store. -/
theorem handleGetData_spec_witness :
    (txKind = txKind ∧ poolLookup [] [1] = none ∧
      handleGetData [] [] ⟨[7], txKind, [1]⟩ = [SentMsg.sentTx [7] zeroTransaction]) ∧
    (blockKind = blockKind ∧ getBlock [] [1] = none ∧
      handleGetData [] [] ⟨[7], blockKind, [1]⟩ = []) :=
  ⟨⟨rfl, rfl, ((handleGetData_spec [] [] ⟨[7], txKind, [1]⟩).1 rfl rfl).1⟩,
   ⟨rfl, rfl, (handleGetData_spec [] [] ⟨[7], blockKind, [1]⟩).2 rfl rfl⟩⟩

/-- Go-map read of `spentTXOs` (zero value: nil list). -/
def spentGet : List (Bytes × List Int) → Bytes → List Int
  | [], _ => []
  | (k0, vs) :: rest, k => if k0 = k then vs else spentGet rest k

/-- `spentTXOs[inTxID] = append(spentTXOs[inTxID], in.Out)`. -/
def spentAdd (m : List (Bytes × List Int)) (k : Bytes) (v : Int) :
    List (Bytes × List Int) :=
  match m with
  | [] => [(k, [v])]
  | (k0, vs) :: rest =>
    if k0 = k then (k0, vs ++ [v]) :: rest else (k0, vs) :: spentAdd rest k v

/-- Go-map read of the `UTXO` accumulator (zero value: no outputs). -/
def goGetOuts (m : UtxoStore) (k : Bytes) : TxOutputs :=
  (storeGet m k).getD ⟨[]⟩

/-- The per-transaction body of `BlockChain.FindUTXO` (blockchain.go
lines 271-301): append every output whose index is not yet in
`spentTXOs[txID]` to `UTXO[txID]`, then record the inputs of a
non-coinbase transaction in `spentTXOs`. -/
def processTx (st : UtxoStore × List (Bytes × List Int)) (tx : Transaction) :
    UtxoStore × List (Bytes × List Int) :=
  let u1 := tx.outputs.enum.foldl (fun u io =>
    if (io.1 : Int) ∈ spentGet st.2 tx.id then u
    else storeSet u tx.id ⟨(goGetOuts u tx.id).outputs ++ [io.2]⟩) st.1
  let s1 := if isCoinbase tx = false then
      tx.inputs.foldl (fun s inp => spentAdd s inp.id inp.out) st.2
    else st.2
  (u1, s1)

/-- `BlockChain.FindUTXO` (blockchain.go): iterate the blocks from
the tip backward (the chain list is the iterator's output order) and
process every transaction of every block in order. -/
def findUTXO (chain : List Block) : UtxoStore :=
  (chain.foldl (fun st b => b.transactions.foldl processTx st) ([], [])).1

/-- The transactions of the chain in the iterator's (tip-first)
order. -/
def chainTxs (chain : List Block) : List Transaction :=
  (chain.map Block.transactions).flatten

/-- `(id, i)` is referenced by some input of a non-coinbase
transaction of `txs`. -/
def refd (txs : List Transaction) (id : Bytes) (i : Nat) : Bool :=
  txs.any (fun t => !(isCoinbase t) &&
    t.inputs.any (fun inp => decide (inp.id = id) && decide (inp.out = (i : Int))))

/-- The outputs of `tx` that no input of `txs` references, in order. -/
def unspentOutputs (txs : List Transaction) (tx : Transaction) : List TxOutput :=
  (tx.outputs.enum.filter (fun p => !(refd txs tx.id p.1))).map Prod.snd

/-- `UTXOSet.DeleteByPrefix` on the utxo layer: since the model store
holds exactly the utxo-prefixed keys, deleting by prefix clears it. -/
def deleteAllUtxo (_st : UtxoStore) : UtxoStore := []

/-- `UTXOSet.Reindex` (utxo.go): delete all utxo-prefixed keys, then
write one entry per key of `FindUTXO`'s result (Go map iteration
order is arbitrary; the model uses the accumulator's order, which is
irrelevant because its keys are distinct). -/
def reindexUtxo (old : UtxoStore) (chain : List Block) : UtxoStore :=
  (findUTXO chain).foldl (fun st kv => storeSet st kv.1 kv.2) (deleteAllUtxo old)

theorem storeGet_set_ne (k k2 : Bytes) (v : TxOutputs) (hne : k ≠ k2) :
    ∀ st : UtxoStore, storeGet (storeSet st k v) k2 = storeGet st k2 := by
  intro st
  induction st with
  | nil =>
    rw [storeSet, storeGet, List.find?]
    rw [decide_eq_false hne]
    rfl
  | cons kv rest ih =>
    match kv with
    | (k0, v0) =>
      rw [storeSet]
      by_cases hk : k0 = k
      · rw [if_pos hk]
        rw [storeGet, List.find?, decide_eq_false hne]
        rw [storeGet, List.find?, decide_eq_false (hk ▸ hne)]
      · rw [if_neg hk]
        rw [storeGet, List.find?]
        rw [storeGet, List.find?]
        by_cases hk2 : k0 = k2
        · rw [decide_eq_true hk2]
        · rw [decide_eq_false hk2]
          exact ih

theorem mem_keys_storeSet (k j : Bytes) (v : TxOutputs) :
    ∀ st : UtxoStore, j ∈ (storeSet st k v).map Prod.fst ↔
      j ∈ st.map Prod.fst ∨ j = k := by
  intro st
  induction st with
  | nil => simp [storeSet]
  | cons kv rest ih =>
    match kv with
    | (k0, v0) =>
      rw [storeSet]
      by_cases hk : k0 = k
      · rw [if_pos hk]
        subst hk
        simp only [List.map_cons, List.mem_cons]
        tauto
      · rw [if_neg hk]
        simp only [List.map_cons, List.mem_cons]
        rw [ih]
        tauto

theorem storeSet_nodupKeys (k : Bytes) (v : TxOutputs) :
    ∀ st : UtxoStore, (st.map Prod.fst).Nodup →
      ((storeSet st k v).map Prod.fst).Nodup := by
  intro st
  induction st with
  | nil =>
    intro _
    simp [storeSet]
  | cons kv rest ih =>
    match kv with
    | (k0, v0) =>
      intro hnd
      simp only [List.map_cons, List.nodup_cons] at hnd
      rw [storeSet]
      by_cases hk : k0 = k
      · rw [if_pos hk]
        subst hk
        simp only [List.map_cons, List.nodup_cons]
        exact hnd
      · rw [if_neg hk]
        simp only [List.map_cons, List.nodup_cons]
        constructor
        · rw [mem_keys_storeSet]
          push_neg
          exact ⟨hnd.1, hk⟩
        · exact ih hnd.2

theorem spentAdd_mem (k j : Bytes) (v o : Int) :
    ∀ m : List (Bytes × List Int),
      o ∈ spentGet (spentAdd m k v) j ↔ o ∈ spentGet m j ∨ (j = k ∧ o = v) := by
  intro m
  induction m with
  | nil =>
    rw [spentAdd]
    by_cases hj : j = k
    · subst hj
      simp [spentGet]
    · have hj2 : ¬ (k = j) := fun hc => hj hc.symm
      simp [spentGet, hj, hj2]
  | cons kv rest ih =>
    match kv with
    | (k0, vs) =>
      by_cases hk : k0 = k
      · subst hk
        rw [spentAdd, if_pos rfl]
        by_cases hj : k0 = j
        · subst hj
          rw [spentGet, if_pos rfl, spentGet, if_pos rfl]
          simp [List.mem_append]
        · have hj2 : ¬ (j = k0) := fun hc => hj hc.symm
          rw [spentGet, if_neg hj, spentGet, if_neg hj]
          simp [hj2]
      · rw [spentAdd, if_neg hk]
        by_cases hj : k0 = j
        · subst hj
          rw [spentGet, if_pos rfl, spentGet, if_pos rfl]
          simp [hk]
        · rw [spentGet, if_neg hj, spentGet, if_neg hj]
          exact ih

theorem spentFold_mem (j : Bytes) (o : Int) :
    ∀ (inputs : List TxInput) (m : List (Bytes × List Int)),
      o ∈ spentGet (inputs.foldl (fun s inp => spentAdd s inp.id inp.out) m) j ↔
        o ∈ spentGet m j ∨ ∃ inp ∈ inputs, inp.id = j ∧ inp.out = o := by
  intro inputs
  induction inputs with
  | nil => simp
  | cons inp rest ih =>
    intro m
    rw [List.foldl_cons, ih, spentAdd_mem]
    simp only [List.mem_cons]
    constructor
    · rintro ((h | ⟨hj, ho⟩) | ⟨i2, hi2, hid, hout⟩)
      · exact Or.inl h
      · exact Or.inr ⟨inp, Or.inl rfl, hj.symm, ho.symm⟩
      · exact Or.inr ⟨i2, Or.inr hi2, hid, hout⟩
    · rintro (h | ⟨i2, (rfl | hi2), hid, hout⟩)
      · exact Or.inl (Or.inl h)
      · exact Or.inl (Or.inr ⟨hid.symm, hout.symm⟩)
      · exact Or.inr ⟨i2, hi2, hid, hout⟩

theorem outputsPass (txid : Bytes) (spent : List Int) :
    ∀ (l : List (Nat × TxOutput)) (u : UtxoStore),
      (∀ k, k ≠ txid →
        storeGet (l.foldl (fun u io =>
          if (io.1 : Int) ∈ spent then u
          else storeSet u txid ⟨(goGetOuts u txid).outputs ++ [io.2]⟩) u) k =
        storeGet u k) ∧
      (storeGet (l.foldl (fun u io =>
        if (io.1 : Int) ∈ spent then u
        else storeSet u txid ⟨(goGetOuts u txid).outputs ++ [io.2]⟩) u) txid =
        (if (l.filter (fun io => decide (¬ (io.1 : Int) ∈ spent))).map Prod.snd = []
          then storeGet u txid
          else some ⟨(goGetOuts u txid).outputs ++
            (l.filter (fun io => decide (¬ (io.1 : Int) ∈ spent))).map Prod.snd⟩)) ∧
      ((u.map Prod.fst).Nodup →
        ((l.foldl (fun u io =>
          if (io.1 : Int) ∈ spent then u
          else storeSet u txid ⟨(goGetOuts u txid).outputs ++ [io.2]⟩) u).map Prod.fst).Nodup) := by
  intro l
  induction l with
  | nil =>
    intro u
    exact ⟨fun k _ => rfl, by simp, fun h => h⟩
  | cons io rest ih =>
    intro u
    by_cases hmem : (io.1 : Int) ∈ spent
    · have hfil : ((io :: rest).filter (fun io => decide (¬ (io.1 : Int) ∈ spent))) =
          rest.filter (fun io => decide (¬ (io.1 : Int) ∈ spent)) := by
        rw [List.filter_cons]
        simp [hmem]
      rw [List.foldl_cons, if_pos hmem, hfil]
      exact ih u
    · have hfil : ((io :: rest).filter (fun io => decide (¬ (io.1 : Int) ∈ spent))) =
          io :: rest.filter (fun io => decide (¬ (io.1 : Int) ∈ spent)) := by
        rw [List.filter_cons]
        simp [hmem]
      rw [List.foldl_cons, if_neg hmem, hfil]
      obtain ⟨ihk, iht, ihn⟩ := ih (storeSet u txid ⟨(goGetOuts u txid).outputs ++ [io.2]⟩)
      refine ⟨?_, ?_, ?_⟩
      · intro k hk
        rw [ihk k hk]
        exact storeGet_set_ne txid k _ (fun hc => hk hc.symm) u
      · rw [iht]
        have hset : storeGet (storeSet u txid ⟨(goGetOuts u txid).outputs ++ [io.2]⟩) txid =
            some ⟨(goGetOuts u txid).outputs ++ [io.2]⟩ := storeGet_set_self txid _ u
        have hgo : goGetOuts (storeSet u txid ⟨(goGetOuts u txid).outputs ++ [io.2]⟩) txid =
            ⟨(goGetOuts u txid).outputs ++ [io.2]⟩ := by
          rw [goGetOuts, hset]
          rfl
        by_cases hrest : (rest.filter (fun io => decide (¬ (io.1 : Int) ∈ spent))).map
            Prod.snd = []
        · rw [if_pos hrest, hset, List.map_cons, hrest]
          rw [if_neg (by simp)]
        · rw [if_neg hrest, hgo, List.map_cons]
          rw [if_neg (by simp)]
          rw [List.append_assoc]
          rfl
      · intro hnd
        exact ihn (storeSet_nodupKeys txid _ u hnd)

theorem find?_append_none (p : α → Bool) :
    ∀ l1 l2 : List α, l1.find? p = none → (l1 ++ l2).find? p = l2.find? p := by
  intro l1 l2
  induction l1 with
  | nil => intro _; rfl
  | cons a as ih =>
    intro h
    rcases hp : p a with _ | _
    · rw [List.find?_cons_of_neg _ (by simp [hp])] at h
      rw [List.cons_append, List.find?_cons_of_neg _ (by simp [hp])]
      exact ih h
    · rw [List.find?_cons_of_pos _ hp] at h
      exact Option.noConfusion h

theorem find?_append_some (p : α → Bool) :
    ∀ l1 l2 : List α, ∀ x, l1.find? p = some x → (l1 ++ l2).find? p = some x := by
  intro l1 l2
  induction l1 with
  | nil =>
    intro x h
    exact Option.noConfusion h
  | cons a as ih =>
    intro x h
    rcases hp : p a with _ | _
    · rw [List.find?_cons_of_neg _ (by simp [hp])] at h
      rw [List.cons_append, List.find?_cons_of_neg _ (by simp [hp])]
      exact ih x h
    · rw [List.find?_cons_of_pos _ hp] at h
      rw [List.cons_append, List.find?_cons_of_pos _ hp]
      exact h

/-- The entry the claim expects under a key: the (unique, given
distinct ids) transaction of the processed prefix with that id,
carrying exactly its outputs that no input of the whole chain
references — absent when all are referenced. -/
def expectedEntry (txs P : List Transaction) (id : Bytes) : Option TxOutputs :=
  (P.find? (fun t => decide (t.id = id))).bind (fun t =>
    if unspentOutputs txs t = [] then none else some ⟨unspentOutputs txs t⟩)

theorem expectedEntry_append_ne (txs P : List Transaction) (t : Transaction) (id : Bytes)
    (hne : t.id ≠ id) :
    expectedEntry txs (P ++ [t]) id = expectedEntry txs P id := by
  rw [expectedEntry, expectedEntry]
  rcases h : P.find? (fun t => decide (t.id = id)) with _ | x
  · rw [find?_append_none _ _ _ h, List.find?_cons_of_neg _ (by simpa using hne), h]
    rfl
  · rw [find?_append_some _ _ _ x h, h]

theorem expectedEntry_append_self (txs P : List Transaction) (t : Transaction)
    (hfresh : ∀ t2 ∈ P, t2.id ≠ t.id) :
    expectedEntry txs (P ++ [t]) t.id =
      (if unspentOutputs txs t = [] then none else some ⟨unspentOutputs txs t⟩) := by
  rw [expectedEntry]
  have hnone : P.find? (fun t2 => decide (t2.id = t.id)) = none := by
    rw [List.find?_eq_none]
    intro x hx
    simpa using hfresh x hx
  rw [find?_append_none _ _ _ hnone, List.find?_cons_of_pos _ (by simp)]
  rfl

theorem refd_eq_true_iff (txs : List Transaction) (id0 : Bytes) (i : Nat) :
    refd txs id0 i = true ↔
      ∃ t2 ∈ txs, isCoinbase t2 = false ∧
        ∃ inp ∈ t2.inputs, inp.id = id0 ∧ inp.out = (i : Int) := by
  simp [refd, List.any_eq_true, Bool.and_eq_true, Bool.not_eq_true', decide_eq_true_eq]

theorem findUTXO_invariant (txs : List Transaction)
    (H1 : (txs.map Transaction.id).Nodup)
    (H2 : ∀ p q : Fin txs.length, p ≤ q →
      ∀ inp ∈ (txs.get q).inputs, isCoinbase (txs.get q) = false →
        inp.id ≠ (txs.get p).id) :
    ∀ (post pre : List Transaction) (u : UtxoStore) (s : List (Bytes × List Int)),
      txs = pre ++ post →
      (∀ id, storeGet u id = expectedEntry txs pre id) →
      (∀ id o, o ∈ spentGet s id ↔
        ∃ t ∈ pre, isCoinbase t = false ∧ ∃ inp ∈ t.inputs, inp.id = id ∧ inp.out = o) →
      (u.map Prod.fst).Nodup →
      (∀ id, storeGet (post.foldl processTx (u, s)).1 id =
        expectedEntry txs (pre ++ post) id) ∧
      ((post.foldl processTx (u, s)).1.map Prod.fst).Nodup := by
  intro post
  induction post with
  | nil =>
    intro pre u s htxs hIU hIS hND
    rw [List.foldl_nil]
    refine ⟨fun id => ?_, hND⟩
    rw [List.append_nil, hIU id]
  | cons t rest ih =>
    intro pre u s htxs hIU hIS hND
    -- t's id is fresh relative to the processed prefix
    have hfresh : ∀ t2 ∈ pre, t2.id ≠ t.id := by
      intro t2 ht2
      have hmap := H1
      rw [htxs, List.map_append, List.nodup_append] at hmap
      intro hc
      exact hmap.2.2 (hc ▸ List.mem_map_of_mem Transaction.id ht2) (by simp)
    -- every chain-wide reference to t.id lies in the prefix
    have hplen : pre.length < txs.length := by
      rw [htxs, List.length_append]
      simp
    have hgett : txs.get ⟨pre.length, hplen⟩ = t := by
      have h1 : txs[pre.length]? = some t := by
        rw [htxs, List.getElem?_append_right (le_refl pre.length)]
        simp
      have h2 : txs[pre.length]? = some (txs.get ⟨pre.length, hplen⟩) := by
        rw [List.getElem?_eq_getElem hplen]
        rfl
      rw [h1] at h2
      exact (Option.some.inj h2).symm
    have hrefd_pre : ∀ i : Int,
        (∃ t2 ∈ txs, isCoinbase t2 = false ∧
          ∃ inp ∈ t2.inputs, inp.id = t.id ∧ inp.out = i) →
        ∃ t2 ∈ pre, isCoinbase t2 = false ∧
          ∃ inp ∈ t2.inputs, inp.id = t.id ∧ inp.out = i := by
      rintro i ⟨t2, ht2mem, hcb2, inp, hinpmem, hid, hout⟩
      obtain ⟨q, hgetq⟩ := List.mem_iff_get.mp ht2mem
      by_cases hqp : (q : Nat) < pre.length
      · refine ⟨t2, ?_, hcb2, inp, hinpmem, hid, hout⟩
        obtain ⟨k, hklt⟩ := q
        have h1 : txs[k]? = some t2 := by
          rw [← hgetq, List.get_eq_getElem, List.getElem?_eq_getElem hklt]
        rw [htxs] at h1
        have hkp : k < pre.length := hqp
        rw [List.getElem?_append_left hkp] at h1
        exact List.getElem?_mem h1
      · exfalso
        have hle : (⟨pre.length, hplen⟩ : Fin txs.length) ≤ q :=
          Fin.le_def.mpr (Nat.le_of_not_lt hqp)
        have hne := H2 ⟨pre.length, hplen⟩ q hle inp (by rw [hgetq]; exact hinpmem)
          (by rw [hgetq]; exact hcb2)
        rw [hgett] at hne
        exact hne hid
    have hspent_iff : ∀ i : Nat,
        ((i : Int) ∈ spentGet s t.id) ↔ refd txs t.id i = true := by
      intro i
      rw [hIS, refd_eq_true_iff]
      constructor
      · rintro ⟨t2, ht2, hcb2, inp, hinp, hid, hout⟩
        exact ⟨t2, by rw [htxs]; exact List.mem_append_left _ ht2, hcb2, inp, hinp, hid, hout⟩
      · intro h
        exact hrefd_pre (i : Int) h
    -- the outputs pass writes exactly the unspent outputs of t
    have hcongr : (t.outputs.enum.filter
        (fun io => decide (¬ (io.1 : Int) ∈ spentGet s t.id))).map Prod.snd =
        unspentOutputs txs t := by
      rw [unspentOutputs]
      congr 1
      apply List.filter_congr
      intro io _
      by_cases hr : ((io.1 : Int)) ∈ spentGet s t.id
      · have h1 : refd txs t.id io.1 = true := (hspent_iff io.1).mp hr
        simp [hr, h1]
      · have h1 : refd txs t.id io.1 = false := by
          rcases Bool.eq_false_or_eq_true (refd txs t.id io.1) with h | h
          · exact absurd ((hspent_iff io.1).mpr h) hr
          · exact h
        simp [hr, h1]
    obtain ⟨hPk, hPt, hPn⟩ := outputsPass t.id (spentGet s t.id) t.outputs.enum u
    have hut : storeGet u t.id = none := by
      rw [hIU t.id, expectedEntry]
      have hnone : pre.find? (fun t2 => decide (t2.id = t.id)) = none := by
        rw [List.find?_eq_none]
        intro x hx
        simpa using hfresh x hx
      rw [hnone]
      rfl
    rw [List.foldl_cons]
    have hstep := ih (pre ++ [t])
      (t.outputs.enum.foldl (fun u io =>
        if (io.1 : Int) ∈ spentGet s t.id then u
        else storeSet u t.id ⟨(goGetOuts u t.id).outputs ++ [io.2]⟩) u)
      (if isCoinbase t = false then
        t.inputs.foldl (fun s inp => spentAdd s inp.id inp.out) s
      else s)
      (by rw [htxs, List.append_assoc]; rfl)
      ?_ ?_ ?_
    · rw [List.append_assoc, List.singleton_append] at hstep
      exact ⟨fun id => by rw [← (hstep).1 id]; rfl, by exact hstep.2⟩
    · -- utxo invariant after processing t
      intro id
      by_cases hid : id = t.id
      · subst hid
        rw [hPt, hcongr, expectedEntry_append_self txs pre t hfresh, hut]
        rcases hu : unspentOutputs txs t with _ | _
        · rw [if_pos rfl, if_pos rfl]
        · rw [if_neg (by simp [hu]), if_neg (by simp [hu])]
          rw [goGetOuts, hut]
          simp
      · rw [hPk id (fun hc => hid hc), hIU id,
          expectedEntry_append_ne txs pre t id (fun hc => hid hc.symm)]
    · -- spent invariant after processing t
      intro id o
      by_cases hcb : isCoinbase t = false
      · rw [if_pos hcb, spentFold_mem, hIS]
        constructor
        · rintro (⟨t2, ht2, h2⟩ | ⟨inp, hinp, hid, hout⟩)
          · exact ⟨t2, List.mem_append_left _ ht2, h2⟩
          · exact ⟨t, List.mem_append_right _ (by simp), hcb, inp, hinp, hid, hout⟩
        · rintro ⟨t2, ht2, h2⟩
          rcases List.mem_append.mp ht2 with h | h
          · exact Or.inl ⟨t2, h, h2⟩
          · rw [List.mem_singleton] at h
            subst h
            exact Or.inr h2.2
      · rw [if_neg hcb, hIS]
        constructor
        · rintro ⟨t2, ht2, h2⟩
          exact ⟨t2, List.mem_append_left _ ht2, h2⟩
        · rintro ⟨t2, ht2, h2⟩
          rcases List.mem_append.mp ht2 with h | h
          · exact ⟨t2, h, h2⟩
          · rw [List.mem_singleton] at h
            subst h
            exact absurd h2.1 hcb
    · exact hPn hND

/-- Folding over the flattened per-block transaction lists equals the
nested block/transaction fold performed by `FindUTXO`. -/
theorem foldl_flatten {α β σ : Type} (f : σ → α → σ) (g : β → List α) :
    ∀ (l : List β) (s : σ),
      ((l.map g).flatten).foldl f s =
        l.foldl (fun st b => (g b).foldl f st) s := by
  intro l
  induction l with
  | nil => intro s; rfl
  | cons b rest ih =>
    intro s
    rw [List.map_cons, List.flatten_cons, List.foldl_append, List.foldl_cons, ih]

/-- A key outside the store's key set reads as `none`. -/
theorem storeGet_eq_none_of_not_mem (es : UtxoStore) (k : Bytes)
    (h : ¬ k ∈ es.map Prod.fst) : storeGet es k = none := by
  rw [storeGet]
  have hfind : es.find? (fun kv => kv.1 = k) = none := by
    rw [List.find?_eq_none]
    intro kv hkv
    simp only [decide_eq_true_eq]
    intro hc
    exact h (hc ▸ List.mem_map_of_mem Prod.fst hkv)
  rw [hfind]
  rfl

/-- Writing a list of distinct-keyed entries into a store with
`storeSet` reproduces each of those entries, and falls back to the
initial store off the written keys. -/
theorem foldSet_lookup (id : Bytes) :
    ∀ (es : UtxoStore), ((es.map Prod.fst).Nodup) → ∀ (init : UtxoStore),
      storeGet (es.foldl (fun st kv => storeSet st kv.1 kv.2) init) id =
        (match storeGet es id with
         | some v => some v
         | none => storeGet init id) := by
  intro es
  induction es with
  | nil =>
    intro _ init
    rw [List.foldl_nil]
    rfl
  | cons kv rest ih =>
    intro hnd init
    rw [List.map_cons, List.nodup_cons] at hnd
    rw [List.foldl_cons, ih hnd.2]
    by_cases hk : kv.1 = id
    · have hcons : storeGet (kv :: rest) id = some kv.2 := by
        rw [storeGet, List.find?_cons_of_pos _ (by simp [hk])]
        rfl
      have hrest : storeGet rest id = none :=
        storeGet_eq_none_of_not_mem rest id (by rw [← hk]; exact hnd.1)
      rw [hcons, hrest]
      show storeGet (storeSet init kv.1 kv.2) id = some kv.2
      rw [← hk]
      exact storeGet_set_self kv.1 kv.2 init
    · have hcons : storeGet (kv :: rest) id = storeGet rest id := by
        rw [storeGet, storeGet, List.find?_cons_of_neg _ (by simp [hk])]
      rw [hcons]
      rcases h2 : storeGet rest id with _ | v
      · simp only [h2]
        exact storeGet_set_ne kv.1 id kv.2 hk init
      · simp only [h2]

/-- `storeSet`-folding from a distinct-keyed store keeps the keys
distinct. -/
theorem foldSet_nodup :
    ∀ (es init : UtxoStore), ((init.map Prod.fst).Nodup) →
      (((es.foldl (fun st kv => storeSet st kv.1 kv.2) init).map Prod.fst).Nodup) := by
  intro es
  induction es with
  | nil =>
    intro init h
    exact h
  | cons kv rest ih =>
    intro init h
    rw [List.foldl_cons]
    exact ih _ (storeSet_nodupKeys kv.1 kv.2 init h)

/-- C3: `UTXOSet.Reindex` deletes every utxo-prefixed key and rewrites
the index from `BlockChain.FindUTXO`, so afterwards the entry stored
under a transaction id is exactly the nonempty list of that
transaction's outputs that no input of any chain transaction
references (`none` when every output is spent or the id never occurs),
and the keys are pairwise distinct, so every unspent output is stored
exactly once.  Hypotheses: transaction ids are unique across the
chain, and in the tip-first iteration order every input references a
transaction appearing strictly later (spending transactions live in
later blocks than the outputs they spend). -/
theorem reindex_spec (old : UtxoStore) (chain : List Block) (id : Bytes)
    (H1 : ((chainTxs chain).map Transaction.id).Nodup)
    (H2 : ∀ p q : Fin (chainTxs chain).length, p ≤ q →
      ∀ inp ∈ ((chainTxs chain).get q).inputs,
        isCoinbase ((chainTxs chain).get q) = false →
          inp.id ≠ ((chainTxs chain).get p).id) :
    storeGet (reindexUtxo old chain) id =
      expectedEntry (chainTxs chain) (chainTxs chain) id ∧
    ((reindexUtxo old chain).map Prod.fst).Nodup := by
  have hfind : findUTXO chain = ((chainTxs chain).foldl processTx ([], [])).1 := by
    rw [findUTXO, chainTxs, foldl_flatten]
  have hinv := findUTXO_invariant (chainTxs chain) H1 H2 (chainTxs chain) [] [] []
    (by rw [List.nil_append]) (fun id2 => rfl)
    (fun id2 o => by
      constructor
      · intro h
        exact absurd h (List.not_mem_nil o)
      · rintro ⟨t, ht, _⟩
        exact absurd ht (List.not_mem_nil t))
    (by simp)
  rw [List.nil_append] at hinv
  constructor
  · rw [reindexUtxo, deleteAllUtxo]
    rw [foldSet_lookup id (findUTXO chain) (by rw [hfind]; exact hinv.2) []]
    rw [hfind, hinv.1 id]
    rcases hE : expectedEntry (chainTxs chain) (chainTxs chain) id with _ | v
    · rfl
    · rfl
  · rw [reindexUtxo, deleteAllUtxo]
    exact foldSet_nodup (findUTXO chain) [] (by simp)

/-- Witness chain: the genesis coinbase's single 20-coin output is
spent by the first transaction of the tip block, whose own two outputs
and the tip coinbase's output remain unspent. -/
def txA3 : Transaction := ⟨[10], [⟨[], -1, [], [99]⟩], [⟨20, [1]⟩]⟩

def txB3 : Transaction := ⟨[11], [⟨[10], 0, [], []⟩], [⟨7, [2]⟩, ⟨13, [1]⟩]⟩

def txC3 : Transaction := ⟨[12], [⟨[], -1, [], [98]⟩], [⟨20, [3]⟩]⟩

def chain3 : List Block :=
  [⟨1, [5], [txB3, txC3], [4], 0, 1⟩, ⟨0, [4], [txA3], [], 0, 0⟩]

theorem reindex_spec_witness :
    (((chainTxs chain3).map Transaction.id).Nodup) ∧
    (storeGet (reindexUtxo [] chain3) [10] =
      expectedEntry (chainTxs chain3) (chainTxs chain3) [10] ∧
    ((reindexUtxo [] chain3).map Prod.fst).Nodup) :=
  ⟨by decide, reindex_spec [] chain3 [10] (by decide) (by decide)⟩
